import Mathlib

set_option maxHeartbeats 4000000
set_option maxRecDepth 100000

/-!
Verification development for the tic-tac-toe minimax engine
(`tictactoe.py`).  The Python module is a pure computation library:
a 3x3 board model (`initial_state`, `player`, `actions`, `result`,
`winner`, `terminal`, `utility`) and an adversarial search engine
(`get_best_utility_value`, `minimax`) with a one-sided alpha-beta
cutoff and a `random.shuffle` of the action list at every call.

Modelling choices:
* A board (Python: a list of three lists of three cells, where a cell is
  `"X"`, `"O"` or `None`) is modelled as a total function
  `Fin 3 → Fin 3 → Cell`; `copy.deepcopy` followed by a single cell update
  is modelled by the pointwise update `resultU`.  All Python accesses
  `board[i][j]` in the module use in-range indices.
* Python `for i in range(3): for j in range(3)` loops are modelled by the
  row-major coordinate list `allPairs`.
* `random.shuffle` is modelled by an oracle `sh : List Act → List Act
  → List Act` applied to the enumerated action list; the first argument
  is the path of actions leading from the root call of the recursion to
  the current call, so distinct dynamic calls may shuffle differently.
  Theorems quantify over every oracle producing permutations
  (`PermOracle`), which captures every possible shuffle outcome at every
  step.
* `sys.maxsize` on a 64-bit build is `2^63 - 1`; Python integers are exact,
  so they are modelled by `Int`.
* The recursion of `get_best_utility_value` terminates because each move
  fills a cell; it is modelled with an explicit fuel argument.  Fuel `0`
  is only reachable on a full (hence terminal) board, where the Python
  function returns `utility board`; the fuel-`0` clause returns the same.
  All stated theorems demand fuel at least the number of empty cells.
* Inside the search every action comes from `actions board`, so the
  `InvalidActionError` branch of `result` never fires there; the search
  loops therefore step with the total update `resultU`, and the lemma
  `result_eq_ok` records that `result` agrees on exactly these inputs.
-/

/-- Cell values: `E` models Python's `EMPTY = None`; `X` and `O` the marks. -/
inductive Cell
| E
| X
| O
deriving DecidableEq, Repr

/-- A 3x3 board of cells. -/
abbrev Board := Fin 3 → Fin 3 → Cell

/-- An action `(i, j)`: row and column, both in `[0, 2]`. -/
abbrev Act := Fin 3 × Fin 3

/-- Python `initial_state()`: the all-empty board. -/
def initial_state : Board := fun _ _ => Cell.E

/-- Row-major list of the nine coordinates, the iteration order of
`for i in range(3): for j in range(3)`. -/
def allPairs : List Act :=
  (List.finRange 3).flatMap fun i => (List.finRange 3).map fun j => (i, j)

/-- The `x_count` loop of Python `player`: number of tiles equal to `X`. -/
def xCount (b : Board) : Nat := allPairs.countP fun p => b p.1 p.2 == Cell.X

/-- The `o_count` loop of Python `player`: number of tiles equal to `O`. -/
def oCount (b : Board) : Nat := allPairs.countP fun p => b p.1 p.2 == Cell.O

/-- Python `player(board)`: `X` when the counts are equal, else `O`. -/
def player (b : Board) : Cell := if xCount b = oCount b then Cell.X else Cell.O

/-- One chained comparison `c1 == c2 == c3 != EMPTY` of Python `winner`,
returning the first cell of the line on success. -/
def lineCheck (c1 c2 c3 : Cell) : Option Cell :=
  if c1 = c2 ∧ c2 = c3 ∧ c3 ≠ Cell.E then some c1 else none

/-- Python `winner(board)`.  The scan order follows the source exactly:
the `for i in range(3)` loop checks row `i` and then column `i` in the same
iteration (row 0, col 0, row 1, col 1, row 2, col 2), then the main
diagonal, then the anti-diagonal. -/
def winner (b : Board) : Option Cell :=
  Option.orElse (lineCheck (b 0 0) (b 0 1) (b 0 2)) fun _ =>
  Option.orElse (lineCheck (b 0 0) (b 1 0) (b 2 0)) fun _ =>
  Option.orElse (lineCheck (b 1 0) (b 1 1) (b 1 2)) fun _ =>
  Option.orElse (lineCheck (b 0 1) (b 1 1) (b 2 1)) fun _ =>
  Option.orElse (lineCheck (b 2 0) (b 2 1) (b 2 2)) fun _ =>
  Option.orElse (lineCheck (b 0 2) (b 1 2) (b 2 2)) fun _ =>
  Option.orElse (lineCheck (b 0 0) (b 1 1) (b 2 2)) fun _ =>
  lineCheck (b 0 2) (b 1 1) (b 2 0)

/-- Python `terminal(board)`: true when `winner` returns a (truthy) mark, or
when no empty cell remains. -/
def terminal (b : Board) : Bool :=
  (winner b).isSome || allPairs.all fun p => !(b p.1 p.2 == Cell.E)

/-- The list built by the loops of Python `actions`: every `(i, j)` whose
cell is empty, in row-major order. -/
def actionsList (b : Board) : List Act :=
  allPairs.filter fun p => b p.1 p.2 == Cell.E

/-- Python `actions(board)`: `None` on a terminal board, else the list of
empty coordinates. -/
def actions (b : Board) : Option (List Act) :=
  if terminal b then none else some (actionsList b)

/-- Python's `InvalidActionError` exception. -/
inductive InvalidActionError
| mk

/-- The board produced by the non-raising branch of Python `result`:
a deep copy of `board` with cell `a` set to `player board` (the copy is
still unmodified when `player` is called on it). -/
def resultU (b : Board) (a : Act) : Board :=
  fun i j => if (i, j) = a then player b else b i j

/-- Python `result(board, action)`: raises `InvalidActionError` when the
target cell is occupied, otherwise returns the updated copy. -/
def result (b : Board) (a : Act) : Except InvalidActionError Board :=
  if b a.1 a.2 ≠ Cell.E then Except.error InvalidActionError.mk
  else Except.ok (resultU b a)

/-- Python `utility(board)`: `1` if `winner` is `X`, `-1` if `O`, else `0`. -/
def utility (b : Board) : Int :=
  match winner b with
  | some Cell.X => 1
  | some Cell.O => -1
  | _ => 0

/-- Number of empty cells; the termination measure of the search. -/
def emptyCount (b : Board) : Nat :=
  allPairs.countP fun p => b p.1 p.2 == Cell.E

/-- `-sys.maxsize - 1` on a 64-bit build. -/
def INT_MIN : Int := -(2 ^ 63)

/-- `sys.maxsize` on a 64-bit build. -/
def INT_MAX : Int := 2 ^ 63 - 1

/-- A shuffle oracle: given the path of actions from the root call and the
enumerated action list, returns the shuffled list. -/
abbrev Oracle := List Act → List Act → List Act

/-- An oracle models `random.shuffle` when it always returns a permutation. -/
def PermOracle (sh : Oracle) : Prop := ∀ path l, (sh path l).Perm l

/-- The `for action in available_actions` loop of the X (maximizing) branch
of `get_best_utility_value`: `eval a m` is the recursive call on the board
after `a` with pruning parameter `m` (the current `local_max_util`). -/
def maxLoop (eval : Act → Int → Int) (bound : Int) : List Act → Int → Int
| [], best => best
| a :: rest, best =>
  let t := eval a best
  if t = 1 then 1
  else if bound < t then bound
  else maxLoop eval bound rest (max t best)

/-- The loop of the O (minimizing) branch of `get_best_utility_value`. -/
def minLoop (eval : Act → Int → Int) (bound : Int) : List Act → Int → Int
| [], best => best
| a :: rest, best =>
  let t := eval a best
  if t = -1 then -1
  else if t < bound then bound
  else minLoop eval bound rest (min t best)

/-- Python `get_best_utility_value(board, parent_optimal_util)`, with fuel
and the call path made explicit (see the module comment). -/
def get_best_utility_value (sh : Oracle) : Nat → List Act → Board → Int → Int
| 0, _, b, _ => utility b
| f + 1, path, b, bound =>
  if terminal b then utility b
  else if player b = Cell.X then
    maxLoop (fun a m => get_best_utility_value sh f (path ++ [a]) (resultU b a) m)
      bound (sh path (actionsList b)) INT_MIN
  else
    minLoop (fun a m => get_best_utility_value sh f (path ++ [a]) (resultU b a) m)
      bound (sh path (actionsList b)) INT_MAX

/-- The three kinds of value Python `minimax` can return: `None` (terminal
board), the initializer `best_action = ()`, or an action `(i, j)`. -/
inductive MMRet
| retNone
| retEmpty
| retAction (a : Act)
deriving DecidableEq, Repr

/-- The action-selection loop of the X branch of Python `minimax`. -/
def mmMaxLoop (eval : Act → Int → Int) : List Act → Int → MMRet → MMRet
| [], _, best => best
| a :: rest, m, best =>
  let t := eval a m
  if t = 1 then MMRet.retAction a
  else if m < t then mmMaxLoop eval rest t (MMRet.retAction a)
  else mmMaxLoop eval rest m best

/-- The action-selection loop of the O branch of Python `minimax`. -/
def mmMinLoop (eval : Act → Int → Int) : List Act → Int → MMRet → MMRet
| [], _, best => best
| a :: rest, m, best =>
  let t := eval a m
  if t = -1 then MMRet.retAction a
  else if t < m then mmMinLoop eval rest t (MMRet.retAction a)
  else mmMinLoop eval rest m best

/-- Python `minimax(board)`.  The inner `get_best_utility_value` calls are
run with fuel `9`, which always exceeds the number of empty cells.  In the
X branch, a shuffled list of length 9 (empty board) short-circuits to its
first element. -/
def minimax (sh : Oracle) (b : Board) : MMRet :=
  if terminal b then MMRet.retNone
  else if player b = Cell.X then
    let acts := sh [] (actionsList b)
    if h : acts.length = 9 then
      MMRet.retAction (acts.head (by intro hn; rw [hn] at h; simp at h))
    else
      mmMaxLoop (fun a m => get_best_utility_value sh 9 [a] (resultU b a) m)
        acts INT_MIN MMRet.retEmpty
  else
    mmMinLoop (fun a m => get_best_utility_value sh 9 [a] (resultU b a) m)
      (sh [] (actionsList b)) INT_MAX MMRet.retEmpty

/-- Both players repeatedly playing the action returned by `minimax`,
starting from `b`, for at most `fuel` moves; `step` indexes the per-move
shuffle oracle.  The loop stops on a terminal board (where `minimax`
returns `None`) and would also stop if `minimax` ever returned the `()`
initializer. -/
def play (fam : Nat → Oracle) : Nat → Nat → Board → Board
| 0, _, b => b
| f + 1, step, b =>
  if terminal b then b
  else
    match minimax (fam step) b with
    | MMRet.retAction a => play fam f (step + 1) (resultU b a)
    | _ => b

/-- The exact (unpruned) minimax value of a board, stated from the spec's
words: utility on terminal boards, otherwise the max (for X) or min (for O)
of the children's values.  The seeds `-2` and `2` are below and above every
achievable utility, so on a non-terminal board the fold is the exact
max/min over the nonempty children list. -/
def specMinimaxValue : Nat → Board → Int
| 0, b => utility b
| f + 1, b =>
  if terminal b then utility b
  else if player b = Cell.X then
    (actionsList b).foldl (fun m a => max m (specMinimaxValue f (resultU b a))) (-2)
  else
    (actionsList b).foldl (fun m a => min m (specMinimaxValue f (resultU b a))) 2

/-- The winner scan in the order stated by the spec: row 0, row 1, row 2,
column 0, column 1, column 2, main diagonal, anti-diagonal. -/
def specWinner (b : Board) : Option Cell :=
  Option.orElse (lineCheck (b 0 0) (b 0 1) (b 0 2)) fun _ =>
  Option.orElse (lineCheck (b 1 0) (b 1 1) (b 1 2)) fun _ =>
  Option.orElse (lineCheck (b 2 0) (b 2 1) (b 2 2)) fun _ =>
  Option.orElse (lineCheck (b 0 0) (b 1 0) (b 2 0)) fun _ =>
  Option.orElse (lineCheck (b 0 1) (b 1 1) (b 2 1)) fun _ =>
  Option.orElse (lineCheck (b 0 2) (b 1 2) (b 2 2)) fun _ =>
  Option.orElse (lineCheck (b 0 0) (b 1 1) (b 2 2)) fun _ =>
  lineCheck (b 0 2) (b 1 1) (b 2 0)

/-- The board invariant of the spec's data model (section 3): MarkA moves
first, so `count(O) ≤ count(X) ≤ count(O) + 1`. -/
def Valid (b : Board) : Prop := oCount b ≤ xCount b ∧ xCount b ≤ oCount b + 1

/-- Boards reachable from `initial_state` by applying legal actions. -/
inductive Reachable : Board → Prop
| init : Reachable initial_state
| step {b b' : Board} {l : List Act} {a : Act} :
    Reachable b → actions b = some l → a ∈ l →
    result b a = Except.ok b' → Reachable b'

/-- The oracle that leaves every action list in enumeration order. -/
def idOracle : Oracle := fun _ l => l

/-- The bit index of a coordinate pair: cell `(i, j)` is bit `3 * i + j`. -/
def bitIdx (p : Act) : Nat := 3 * p.1.1 + p.2.1

/-- The coordinate pair of a bit index below 9. -/
def unbit (k : Nat) : Act := (⟨k / 3 % 3, Nat.mod_lt _ (by omega)⟩, ⟨k % 3, Nat.mod_lt _ (by omega)⟩)

/-- The bitmask holding the cells of `b` that carry mark `m`. -/
def maskOf (b : Board) (m : Cell) : Nat :=
  allPairs.foldr (fun p acc => (if b p.1 p.2 = m then 1 <<< bitIdx p else 0) ||| acc) 0

/-- The mask of a line through cells with bit indices `i`, `j`, `k`. -/
def bit3 (i j k : Nat) : Nat := (1 <<< i) ||| ((1 <<< j) ||| (1 <<< k))

/-- Masks of the eight winning lines (three rows, three columns, the two
diagonals). -/
def lineMasks : List Nat :=
  [bit3 0 1 2, bit3 3 4 5, bit3 6 7 8,
   bit3 0 3 6, bit3 1 4 7, bit3 2 5 8,
   bit3 0 4 8, bit3 2 4 6]

/-- Whether the mask `m` contains a complete line. -/
def maskWin (m : Nat) : Bool := lineMasks.any fun L => m &&& L == L

/-- Whether bit `k` is clear in both masks (the cell is empty). -/
def cellFree (xm om : Nat) (k : Nat) : Bool := (xm ||| om) &&& (1 <<< k) == 0

/-- Exploration order of the cells for the certificate checkers (center
first, then corners, then edges, for early successes). -/
def bitOrder : List Nat := [4, 0, 2, 6, 8, 1, 3, 5, 7]

/-- Certificate checker: the X side can keep the game value at `≥ 0`
(X never ends up losing) from the position holding marks `xm` / `om`,
with X to move exactly when `xturn` is true. -/
def canDrawX : Nat → Bool → Nat → Nat → Bool
| 0, _, _, om => !maskWin om
| f + 1, xturn, xm, om =>
  if maskWin om then false
  else if maskWin xm then true
  else
    let free := bitOrder.filter (cellFree xm om)
    if free.isEmpty then true
    else if xturn then free.any fun k => canDrawX f false (xm ||| (1 <<< k)) om
    else free.all fun k => canDrawX f true xm (om ||| (1 <<< k))

/-- Certificate checker: the O side can keep the game value at `≤ 0`. -/
def canDrawO : Nat → Bool → Nat → Nat → Bool
| 0, _, xm, _ => !maskWin xm
| f + 1, xturn, xm, om =>
  if maskWin xm then false
  else if maskWin om then true
  else
    let free := bitOrder.filter (cellFree xm om)
    if free.isEmpty then true
    else if xturn then free.all fun k => canDrawO f false (xm ||| (1 <<< k)) om
    else free.any fun k => canDrawO f true xm (om ||| (1 <<< k))

/-- `b` holds a complete line of mark `m` (rows, columns, diagonals). -/
def hasLine (b : Board) (m : Cell) : Prop :=
  (b 0 0 = m ∧ b 0 1 = m ∧ b 0 2 = m) ∨
  (b 1 0 = m ∧ b 1 1 = m ∧ b 1 2 = m) ∨
  (b 2 0 = m ∧ b 2 1 = m ∧ b 2 2 = m) ∨
  (b 0 0 = m ∧ b 1 0 = m ∧ b 2 0 = m) ∨
  (b 0 1 = m ∧ b 1 1 = m ∧ b 2 1 = m) ∨
  (b 0 2 = m ∧ b 1 2 = m ∧ b 2 2 = m) ∨
  (b 0 0 = m ∧ b 1 1 = m ∧ b 2 2 = m) ∨
  (b 0 2 = m ∧ b 1 1 = m ∧ b 2 0 = m)

/-- Strict row-major order on coordinates. -/
def rowMajorLT (p q : Act) : Prop := p.1 < q.1 ∨ (p.1 = q.1 ∧ p.2 < q.2)

/-- The board `[[A, A, Empty], [B, B, Empty], [Empty, Empty, Empty]]` of the
spec's winning-move scenario (MarkA = X). -/
def boardC7 : Board := fun i j =>
  match i.1, j.1 with
  | 0, 0 => Cell.X | 0, 1 => Cell.X | 0, 2 => Cell.E
  | 1, 0 => Cell.O | 1, 1 => Cell.O | 1, 2 => Cell.E
  | _, _ => Cell.E

/-- The board `[[A, B, A], [A, B, B], [B, A, Empty]]` of the spec's draw
scenario (MarkA = X, MarkB = O). -/
def boardC8 : Board := fun i j =>
  match i.1, j.1 with
  | 0, 0 => Cell.X | 0, 1 => Cell.O | 0, 2 => Cell.X
  | 1, 0 => Cell.X | 1, 1 => Cell.O | 1, 2 => Cell.O
  | 2, 0 => Cell.O | 2, 1 => Cell.X | _, _ => Cell.E

/-- A terminal board (X has completed the top row) that still has empty
cells, used to exercise `result` on a terminal board. -/
def boardW : Board := fun i j =>
  match i.1, j.1 with
  | 0, 0 => Cell.X | 0, 1 => Cell.X | 0, 2 => Cell.X
  | 1, 0 => Cell.O | 1, 1 => Cell.O | _, _ => Cell.E

theorem allPairs_nodup : allPairs.Nodup := by decide

theorem mem_allPairs : ∀ p : Act, p ∈ allPairs := by decide

theorem allPairs_length : allPairs.length = 9 := by decide

theorem countP_update_true {α : Type} (p p' : α → Bool) (a : α) :
    ∀ l : List α, l.Nodup → a ∈ l → (∀ x ∈ l, x ≠ a → p' x = p x) →
    p a = false → p' a = true → l.countP p' = l.countP p + 1 := by
  intro l
  induction l with
  | nil => intro _ h; cases h
  | cons x xs ih =>
    intro hnd hmem hpt hpa hp'a
    rcases List.nodup_cons.mp hnd with ⟨hxnotin, hndxs⟩
    by_cases hax : a = x
    · subst hax
      rw [List.countP_cons_of_pos _ _ hp'a, List.countP_cons_of_neg _ _ (by simp [hpa])]
      have : xs.countP p' = xs.countP p := by
        apply List.countP_congr
        intro y hy
        rw [hpt y (List.mem_cons_of_mem _ hy) (fun hya => hxnotin (hya ▸ hy))]
      omega
    · have hmem' : a ∈ xs := by
        rcases List.mem_cons.mp hmem with h | h
        · exact absurd h hax
        · exact h
      have hx : p' x = p x := hpt x (List.mem_cons_self x xs) (fun hxa => hax hxa.symm)
      have := ih hndxs hmem' (fun y hy hne => hpt y (List.mem_cons_of_mem _ hy) hne) hpa hp'a
      by_cases hpx : p x = true
      · rw [List.countP_cons_of_pos _ _ (hx ▸ hpx), List.countP_cons_of_pos _ _ hpx]; omega
      · rw [List.countP_cons_of_neg _ _ (by simp_all), List.countP_cons_of_neg _ _ (by simp_all)]
        omega

theorem resultU_self (b : Board) (a : Act) : resultU b a a.1 a.2 = player b := by
  simp [resultU]

theorem resultU_other (b : Board) (a : Act) (i j : Fin 3) (h : (i, j) ≠ a) :
    resultU b a i j = b i j := by
  simp [resultU, h]

theorem player_cases (b : Board) : player b = Cell.X ∨ player b = Cell.O := by
  unfold player; split <;> simp

theorem player_ne_E (b : Board) : player b ≠ Cell.E := by
  unfold player; split <;> simp

theorem player_eq_X_iff (b : Board) : player b = Cell.X ↔ xCount b = oCount b := by
  unfold player; split <;> simp_all

theorem xCount_resultU_X (b : Board) (a : Act) (he : b a.1 a.2 = Cell.E)
    (hp : player b = Cell.X) : xCount (resultU b a) = xCount b + 1 := by
  apply countP_update_true _ _ a allPairs allPairs_nodup (mem_allPairs a)
  · intro x _ hne
    have hxa : (x.1, x.2) ≠ a := by simpa using hne
    simp [resultU_other b a x.1 x.2 hxa]
  · simp [he]
  · have := resultU_self b a
    simp [this, hp]

theorem oCount_resultU_X (b : Board) (a : Act) (he : b a.1 a.2 = Cell.E)
    (hp : player b = Cell.X) : oCount (resultU b a) = oCount b := by
  apply List.countP_congr
  intro x _
  have hpair : (x.1, x.2) = x := rfl
  by_cases hxa : x = a
  · subst hxa
    rw [resultU_self b x, hp, he]
    simp
  · rw [resultU_other b a x.1 x.2 (hpair ▸ hxa)]

theorem oCount_resultU_O (b : Board) (a : Act) (he : b a.1 a.2 = Cell.E)
    (hp : player b = Cell.O) : oCount (resultU b a) = oCount b + 1 := by
  apply countP_update_true _ _ a allPairs allPairs_nodup (mem_allPairs a)
  · intro x _ hne
    have hxa : (x.1, x.2) ≠ a := by simpa using hne
    simp [resultU_other b a x.1 x.2 hxa]
  · simp [he]
  · have := resultU_self b a
    simp [this, hp]

theorem xCount_resultU_O (b : Board) (a : Act) (he : b a.1 a.2 = Cell.E)
    (hp : player b = Cell.O) : xCount (resultU b a) = xCount b := by
  apply List.countP_congr
  intro x _
  have hpair : (x.1, x.2) = x := rfl
  by_cases hxa : x = a
  · subst hxa
    rw [resultU_self b x, hp, he]
    simp
  · rw [resultU_other b a x.1 x.2 (hpair ▸ hxa)]

theorem player_resultU_X (b : Board) (a : Act) (he : b a.1 a.2 = Cell.E)
    (hp : player b = Cell.X) : player (resultU b a) = Cell.O := by
  have hx := xCount_resultU_X b a he hp
  have ho := oCount_resultU_X b a he hp
  have hxo := (player_eq_X_iff b).mp hp
  unfold player
  rw [hx, ho]
  split
  · exfalso; omega
  · rfl

theorem player_resultU_O (b : Board) (a : Act) (he : b a.1 a.2 = Cell.E)
    (hv : Valid b) (hp : player b = Cell.O) : player (resultU b a) = Cell.X := by
  have hx := xCount_resultU_O b a he hp
  have ho := oCount_resultU_O b a he hp
  have hxo : xCount b ≠ oCount b := by
    intro h
    rw [(player_eq_X_iff b).mpr h] at hp
    cases hp
  have hx1 : xCount b = oCount b + 1 := by
    rcases hv with ⟨h1, h2⟩; omega
  unfold player
  rw [hx, ho]
  split
  · rfl
  · exfalso; omega

theorem Valid_resultU (b : Board) (a : Act) (he : b a.1 a.2 = Cell.E)
    (hv : Valid b) : Valid (resultU b a) := by
  rcases player_cases b with hp | hp
  · have hx := xCount_resultU_X b a he hp
    have ho := oCount_resultU_X b a he hp
    have hxo := (player_eq_X_iff b).mp hp
    exact ⟨by omega, by omega⟩
  · have hx := xCount_resultU_O b a he hp
    have ho := oCount_resultU_O b a he hp
    have hxo : xCount b ≠ oCount b := by
      intro h
      rw [(player_eq_X_iff b).mpr h] at hp
      cases hp
    rcases hv with ⟨h1, h2⟩
    exact ⟨by omega, by omega⟩

theorem emptyCount_resultU (b : Board) (a : Act) (he : b a.1 a.2 = Cell.E) :
    emptyCount (resultU b a) + 1 = emptyCount b := by
  have : emptyCount b = emptyCount (resultU b a) + 1 := by
    apply countP_update_true _ _ a allPairs allPairs_nodup (mem_allPairs a)
    · intro x _ hne
      have hxa : (x.1, x.2) ≠ a := by simpa using hne
      simp [resultU_other b a x.1 x.2 hxa]
    · have h1 := resultU_self b a
      have h2 := player_ne_E b
      simp [h1, h2]
    · simp [he]
  omega

theorem emptyCount_le_nine (b : Board) : emptyCount b ≤ 9 := by
  calc emptyCount b ≤ allPairs.length := List.countP_le_length _
  _ = 9 := allPairs_length

theorem mem_actionsList (b : Board) (p : Act) :
    p ∈ actionsList b ↔ b p.1 p.2 = Cell.E := by
  simp [actionsList, List.mem_filter, mem_allPairs]

theorem length_actionsList (b : Board) : (actionsList b).length = emptyCount b := by
  rw [emptyCount, List.countP_eq_length_filter]
  rfl

theorem actionsList_nodup (b : Board) : (actionsList b).Nodup :=
  allPairs_nodup.filter _

theorem terminal_of_winner {b : Board} {w : Cell} (h : winner b = some w) :
    terminal b = true := by
  simp [terminal, h]

theorem winner_none_of_not_terminal {b : Board} (h : terminal b = false) :
    winner b = none := by
  unfold terminal at h
  rcases hw : winner b with _ | w
  · rfl
  · rw [hw] at h; simp at h

theorem exists_empty_of_not_terminal {b : Board} (h : terminal b = false) :
    ∃ p : Act, b p.1 p.2 = Cell.E := by
  unfold terminal at h
  rw [Bool.or_eq_false_iff] at h
  obtain ⟨-, h2⟩ := h
  rw [List.all_eq_false] at h2
  obtain ⟨p, _, hp⟩ := h2
  exact ⟨p, by simpa using hp⟩

theorem actionsList_ne_nil_of_not_terminal {b : Board} (h : terminal b = false) :
    actionsList b ≠ [] := by
  obtain ⟨p, hp⟩ := exists_empty_of_not_terminal h
  exact List.ne_nil_of_mem ((mem_actionsList b p).mpr hp)

theorem terminal_false_of {b : Board} (hw : winner b = none)
    (hne : actionsList b ≠ []) : terminal b = false := by
  unfold terminal
  rw [hw]
  obtain ⟨p, hp⟩ := List.exists_mem_of_ne_nil _ hne
  have hpe := (mem_actionsList b p).mp hp
  simp only [Option.isSome_none, Bool.false_or]
  rw [List.all_eq_false]
  exact ⟨p, mem_allPairs p, by simp [hpe]⟩

theorem terminal_of_full {b : Board} (h : actionsList b = []) : terminal b = true := by
  unfold terminal
  have hall : (allPairs.all fun p => !(b p.1 p.2 == Cell.E)) = true := by
    rw [List.all_eq_true]
    intro p _
    by_contra hc
    have hpe : b p.1 p.2 = Cell.E := by simpa using hc
    have : p ∈ actionsList b := (mem_actionsList b p).mpr hpe
    rw [h] at this
    cases this
  simp [hall]

theorem terminal_of_emptyCount_zero {b : Board} (h : emptyCount b = 0) :
    terminal b = true := by
  apply terminal_of_full
  have := length_actionsList b
  rw [h] at this
  exact List.length_eq_zero.mp this

theorem utility_of_winner_X {b : Board} (h : winner b = some Cell.X) : utility b = 1 := by
  simp [utility, h]

theorem utility_of_winner_O {b : Board} (h : winner b = some Cell.O) : utility b = -1 := by
  simp [utility, h]

theorem utility_of_winner_none {b : Board} (h : winner b = none) : utility b = 0 := by
  simp [utility, h]

theorem utility_range (b : Board) : -1 ≤ utility b ∧ utility b ≤ 1 := by
  unfold utility
  rcases winner b with _ | w
  · constructor <;> norm_num
  · cases w <;> constructor <;> norm_num

theorem sMV_terminal {b : Board} (f : Nat) (h : terminal b = true) :
    specMinimaxValue f b = utility b := by
  cases f <;> simp [specMinimaxValue, h]

theorem sMV_succ_X {b : Board} {f : Nat} (h : terminal b = false)
    (hp : player b = Cell.X) :
    specMinimaxValue (f + 1) b =
      (actionsList b).foldl (fun m a => max m (specMinimaxValue f (resultU b a))) (-2) := by
  simp [specMinimaxValue, h, hp]

theorem sMV_succ_O {b : Board} {f : Nat} (h : terminal b = false)
    (hp : player b ≠ Cell.X) :
    specMinimaxValue (f + 1) b =
      (actionsList b).foldl (fun m a => min m (specMinimaxValue f (resultU b a))) 2 := by
  simp [specMinimaxValue, h, hp]

theorem foldl_max_ge_seed (w : Act → Int) :
    ∀ (l : List Act) (s : Int), s ≤ l.foldl (fun m a => max m (w a)) s := by
  intro l
  induction l with
  | nil => intro s; simp
  | cons a t ih =>
    intro s
    exact le_trans (le_max_left s (w a)) (ih (max s (w a)))

theorem foldl_max_ge_elem (w : Act → Int) :
    ∀ (l : List Act) (s : Int) (a : Act), a ∈ l →
      w a ≤ l.foldl (fun m a => max m (w a)) s := by
  intro l
  induction l with
  | nil => intro s a h; cases h
  | cons x t ih =>
    intro s a h
    rcases List.mem_cons.mp h with h | h
    · subst h
      exact le_trans (le_max_right s (w a)) (foldl_max_ge_seed w t (max s (w a)))
    · exact ih (max s (w x)) a h

theorem foldl_max_le (w : Act → Int) :
    ∀ (l : List Act) (s c : Int), s ≤ c → (∀ a ∈ l, w a ≤ c) →
      l.foldl (fun m a => max m (w a)) s ≤ c := by
  intro l
  induction l with
  | nil => intro s c h _; simpa using h
  | cons x t ih =>
    intro s c hs hl
    exact ih _ c (max_le hs (hl x (List.mem_cons_self x t)))
      (fun a ha => hl a (List.mem_cons_of_mem _ ha))

theorem foldl_max_seed_eq (w : Act → Int) :
    ∀ (l : List Act) (s t : Int), l ≠ [] → (∀ a ∈ l, s ≤ w a) → (∀ a ∈ l, t ≤ w a) →
      l.foldl (fun m a => max m (w a)) s = l.foldl (fun m a => max m (w a)) t := by
  intro l
  cases l with
  | nil => intro s t h; cases h rfl
  | cons x r =>
    intro s t _ hs ht
    simp only [List.foldl_cons]
    rw [max_eq_right (hs x (List.mem_cons_self x r)), max_eq_right (ht x (List.mem_cons_self x r))]

theorem foldl_max_congr (w w' : Act → Int) :
    ∀ (l : List Act) (s : Int), (∀ a ∈ l, w a = w' a) →
      l.foldl (fun m a => max m (w a)) s = l.foldl (fun m a => max m (w' a)) s := by
  intro l
  induction l with
  | nil => intro s _; rfl
  | cons x t ih =>
    intro s h
    simp only [List.foldl_cons]
    rw [h x (List.mem_cons_self x t)]
    exact ih _ (fun a ha => h a (List.mem_cons_of_mem _ ha))

theorem foldl_max_perm (w : Act → Int) {l l' : List Act} (h : l.Perm l') (s : Int) :
    l.foldl (fun m a => max m (w a)) s = l'.foldl (fun m a => max m (w a)) s := by
  apply h.foldl_eq'
  intro x _ y _ z
  rw [max_assoc, max_comm (w x) (w y), ← max_assoc]

theorem foldl_min_le_seed (w : Act → Int) :
    ∀ (l : List Act) (s : Int), l.foldl (fun m a => min m (w a)) s ≤ s := by
  intro l
  induction l with
  | nil => intro s; simp
  | cons a t ih =>
    intro s
    exact le_trans (ih (min s (w a))) (min_le_left s (w a))

theorem foldl_min_le_elem (w : Act → Int) :
    ∀ (l : List Act) (s : Int) (a : Act), a ∈ l →
      l.foldl (fun m a => min m (w a)) s ≤ w a := by
  intro l
  induction l with
  | nil => intro s a h; cases h
  | cons x t ih =>
    intro s a h
    rcases List.mem_cons.mp h with h | h
    · subst h
      exact le_trans (foldl_min_le_seed w t (min s (w a))) (min_le_right s (w a))
    · exact ih (min s (w x)) a h

theorem foldl_min_ge (w : Act → Int) :
    ∀ (l : List Act) (s c : Int), c ≤ s → (∀ a ∈ l, c ≤ w a) →
      c ≤ l.foldl (fun m a => min m (w a)) s := by
  intro l
  induction l with
  | nil => intro s c h _; simpa using h
  | cons x t ih =>
    intro s c hs hl
    exact ih _ c (le_min hs (hl x (List.mem_cons_self x t)))
      (fun a ha => hl a (List.mem_cons_of_mem _ ha))

theorem foldl_min_seed_eq (w : Act → Int) :
    ∀ (l : List Act) (s t : Int), l ≠ [] → (∀ a ∈ l, w a ≤ s) → (∀ a ∈ l, w a ≤ t) →
      l.foldl (fun m a => min m (w a)) s = l.foldl (fun m a => min m (w a)) t := by
  intro l
  cases l with
  | nil => intro s t h; cases h rfl
  | cons x r =>
    intro s t _ hs ht
    simp only [List.foldl_cons]
    rw [min_eq_right (hs x (List.mem_cons_self x r)), min_eq_right (ht x (List.mem_cons_self x r))]

theorem foldl_min_congr (w w' : Act → Int) :
    ∀ (l : List Act) (s : Int), (∀ a ∈ l, w a = w' a) →
      l.foldl (fun m a => min m (w a)) s = l.foldl (fun m a => min m (w' a)) s := by
  intro l
  induction l with
  | nil => intro s _; rfl
  | cons x t ih =>
    intro s h
    simp only [List.foldl_cons]
    rw [h x (List.mem_cons_self x t)]
    exact ih _ (fun a ha => h a (List.mem_cons_of_mem _ ha))

theorem foldl_min_perm (w : Act → Int) {l l' : List Act} (h : l.Perm l') (s : Int) :
    l.foldl (fun m a => min m (w a)) s = l'.foldl (fun m a => min m (w a)) s := by
  apply h.foldl_eq'
  intro x _ y _ z
  rw [min_assoc, min_comm (w x) (w y), ← min_assoc]

theorem sMV_range : ∀ (f : Nat) (b : Board),
    -1 ≤ specMinimaxValue f b ∧ specMinimaxValue f b ≤ 1 := by
  intro f
  induction f with
  | zero =>
    intro b
    simpa [specMinimaxValue] using utility_range b
  | succ f ih =>
    intro b
    by_cases ht : terminal b = true
    · rw [sMV_terminal _ ht]; exact utility_range b
    · have ht' : terminal b = false := by simpa using ht
      obtain ⟨a0, ha0⟩ := List.exists_mem_of_ne_nil _ (actionsList_ne_nil_of_not_terminal ht')
      rcases player_cases b with hp | hp
      · rw [sMV_succ_X ht' hp]
        constructor
        · exact le_trans (ih (resultU b a0)).1
            (foldl_max_ge_elem _ (actionsList b) (-2) a0 ha0)
        · exact foldl_max_le _ (actionsList b) (-2) 1 (by norm_num)
            (fun a _ => (ih (resultU b a)).2)
      · have hpx : player b ≠ Cell.X := by rw [hp]; intro h; cases h
        rw [sMV_succ_O ht' hpx]
        constructor
        · exact foldl_min_ge _ (actionsList b) 2 (-1) (by norm_num)
            (fun a _ => (ih (resultU b a)).1)
        · exact le_trans (foldl_min_le_elem _ (actionsList b) 2 a0 ha0)
            (ih (resultU b a0)).2

theorem sMV_stable : ∀ (f : Nat) (b : Board), emptyCount b ≤ f →
    specMinimaxValue (f + 1) b = specMinimaxValue f b := by
  intro f
  induction f with
  | zero =>
    intro b h
    rw [sMV_terminal 1 (terminal_of_emptyCount_zero (Nat.le_zero.mp h))]
    rfl
  | succ f ih =>
    intro b h
    by_cases ht : terminal b = true
    · rw [sMV_terminal _ ht, sMV_terminal _ ht]
    · have ht' : terminal b = false := by simpa using ht
      rcases player_cases b with hp | hp
      · rw [sMV_succ_X ht' hp, sMV_succ_X ht' hp]
        apply foldl_max_congr
        intro a ha
        have he := (mem_actionsList b a).mp ha
        have hec := emptyCount_resultU b a he
        exact ih _ (by omega)
      · have hpx : player b ≠ Cell.X := by rw [hp]; intro hc; cases hc
        rw [sMV_succ_O ht' hpx, sMV_succ_O ht' hpx]
        apply foldl_min_congr
        intro a ha
        have he := (mem_actionsList b a).mp ha
        have hec := emptyCount_resultU b a he
        exact ih _ (by omega)

theorem sMV_eq_of_le {f g : Nat} (b : Board) (hf : emptyCount b ≤ f) (hfg : f ≤ g) :
    specMinimaxValue g b = specMinimaxValue f b := by
  induction g, hfg using Nat.le_induction with
  | base => rfl
  | succ g hfg ih =>
    rw [sMV_stable g b (le_trans hf hfg)]
    exact ih

theorem one_shiftLeft_testBit (i n : Nat) : (1 <<< i).testBit n = true ↔ n = i := by
  rw [Nat.one_shiftLeft, Nat.testBit_two_pow]
  simp [eq_comm]

theorem bitIdx_lt (p : Act) : bitIdx p < 9 := by
  have h1 := p.1.2
  have h2 := p.2.2
  unfold bitIdx
  omega

theorem bitIdx_inj : ∀ p q : Act, bitIdx p = bitIdx q → p = q := by decide

theorem bitIdx_unbit : ∀ k, k < 9 → bitIdx (unbit k) = k := by decide

theorem mem_bitOrder_lt : ∀ k ∈ bitOrder, k < 9 := by decide

theorem mem_bitOrder_of_lt : ∀ k, k < 9 → k ∈ bitOrder := by decide

theorem testBit_maskOf (b : Board) (m : Cell) : ∀ (l : List Act) (k : Nat),
    (l.foldr (fun p acc => (if b p.1 p.2 = m then 1 <<< bitIdx p else 0) ||| acc) 0).testBit k
      = true ↔ ∃ p ∈ l, bitIdx p = k ∧ b p.1 p.2 = m := by
  intro l
  induction l with
  | nil => intro k; simp
  | cons p t ih =>
    intro k
    simp only [List.foldr_cons, Nat.testBit_or, Bool.or_eq_true, ih, List.mem_cons]
    constructor
    · rintro (hbit | ⟨q, hq, hk, hm⟩)
      · by_cases hc : b p.1 p.2 = m
        · rw [if_pos hc] at hbit
          exact ⟨p, Or.inl rfl, (one_shiftLeft_testBit _ _).mp hbit |>.symm, hc⟩
        · rw [if_neg hc] at hbit
          simp at hbit
      · exact ⟨q, Or.inr hq, hk, hm⟩
    · rintro ⟨q, hq | hq, hk, hm⟩
      · subst hq
        left
        rw [if_pos hm]
        exact (one_shiftLeft_testBit _ _).mpr hk.symm
      · exact Or.inr ⟨q, hq, hk, hm⟩

theorem testBit_maskOf_cell (b : Board) (m : Cell) (p : Act) :
    (maskOf b m).testBit (bitIdx p) = true ↔ b p.1 p.2 = m := by
  rw [maskOf, testBit_maskOf]
  constructor
  · rintro ⟨q, _, hk, hm⟩
    rwa [bitIdx_inj q p hk] at hm
  · intro hm
    exact ⟨p, mem_allPairs p, rfl, hm⟩

theorem bit3_testBit (i j k n : Nat) :
    (bit3 i j k).testBit n = true ↔ n = i ∨ n = j ∨ n = k := by
  unfold bit3
  simp only [Nat.testBit_or, Bool.or_eq_true, one_shiftLeft_testBit]

theorem and_bit3_iff (m i j k : Nat) :
    m &&& bit3 i j k = bit3 i j k ↔
      (m.testBit i = true ∧ m.testBit j = true ∧ m.testBit k = true) := by
  constructor
  · intro h
    have hti := congrArg (fun x => x.testBit i) h
    have htj := congrArg (fun x => x.testBit j) h
    have htk := congrArg (fun x => x.testBit k) h
    simp only [Nat.testBit_and] at hti htj htk
    have hbi : (bit3 i j k).testBit i = true := (bit3_testBit i j k i).mpr (Or.inl rfl)
    have hbj : (bit3 i j k).testBit j = true := (bit3_testBit i j k j).mpr (Or.inr (Or.inl rfl))
    have hbk : (bit3 i j k).testBit k = true := (bit3_testBit i j k k).mpr (Or.inr (Or.inr rfl))
    rw [hbi] at hti
    rw [hbj] at htj
    rw [hbk] at htk
    exact ⟨by simpa using hti, by simpa using htj, by simpa using htk⟩
  · intro ⟨hi, hj, hk⟩
    apply Nat.eq_of_testBit_eq
    intro n
    rw [Nat.testBit_and]
    by_cases hb : (bit3 i j k).testBit n = true
    · rcases (bit3_testBit i j k n).mp hb with rfl | rfl | rfl <;> simp_all
    · simp [Bool.eq_false_iff.mpr hb]

theorem and_line_cells (b : Board) (m : Cell) (p q r : Act) :
    (maskOf b m &&& bit3 (bitIdx p) (bitIdx q) (bitIdx r)
      == bit3 (bitIdx p) (bitIdx q) (bitIdx r)) = true ↔
      (b p.1 p.2 = m ∧ b q.1 q.2 = m ∧ b r.1 r.2 = m) := by
  rw [beq_iff_eq, and_bit3_iff, testBit_maskOf_cell, testBit_maskOf_cell, testBit_maskOf_cell]

theorem maskWin_iff (b : Board) (m : Cell) :
    maskWin (maskOf b m) = true ↔ hasLine b m := by
  unfold maskWin
  rw [List.any_eq_true]
  constructor
  · rintro ⟨L, hL, hand⟩
    have hL' : L = bit3 0 1 2 ∨ L = bit3 3 4 5 ∨ L = bit3 6 7 8 ∨ L = bit3 0 3 6 ∨
        L = bit3 1 4 7 ∨ L = bit3 2 5 8 ∨ L = bit3 0 4 8 ∨ L = bit3 2 4 6 := by
      simpa [lineMasks] using hL
    unfold hasLine
    rcases hL' with rfl | rfl | rfl | rfl | rfl | rfl | rfl | rfl
    · exact Or.inl ((and_line_cells b m (0, 0) (0, 1) (0, 2)).mp hand)
    · exact Or.inr (Or.inl ((and_line_cells b m (1, 0) (1, 1) (1, 2)).mp hand))
    · exact Or.inr (Or.inr (Or.inl ((and_line_cells b m (2, 0) (2, 1) (2, 2)).mp hand)))
    · exact Or.inr (Or.inr (Or.inr (Or.inl
        ((and_line_cells b m (0, 0) (1, 0) (2, 0)).mp hand))))
    · exact Or.inr (Or.inr (Or.inr (Or.inr (Or.inl
        ((and_line_cells b m (0, 1) (1, 1) (2, 1)).mp hand)))))
    · exact Or.inr (Or.inr (Or.inr (Or.inr (Or.inr (Or.inl
        ((and_line_cells b m (0, 2) (1, 2) (2, 2)).mp hand))))))
    · exact Or.inr (Or.inr (Or.inr (Or.inr (Or.inr (Or.inr (Or.inl
        ((and_line_cells b m (0, 0) (1, 1) (2, 2)).mp hand)))))))
    · exact Or.inr (Or.inr (Or.inr (Or.inr (Or.inr (Or.inr (Or.inr
        ((and_line_cells b m (0, 2) (1, 1) (2, 0)).mp hand)))))))
  · intro h
    unfold hasLine at h
    rcases h with h | h | h | h | h | h | h | h
    · exact ⟨bit3 0 1 2, by simp [lineMasks],
        (and_line_cells b m (0, 0) (0, 1) (0, 2)).mpr h⟩
    · exact ⟨bit3 3 4 5, by simp [lineMasks],
        (and_line_cells b m (1, 0) (1, 1) (1, 2)).mpr h⟩
    · exact ⟨bit3 6 7 8, by simp [lineMasks],
        (and_line_cells b m (2, 0) (2, 1) (2, 2)).mpr h⟩
    · exact ⟨bit3 0 3 6, by simp [lineMasks],
        (and_line_cells b m (0, 0) (1, 0) (2, 0)).mpr h⟩
    · exact ⟨bit3 1 4 7, by simp [lineMasks],
        (and_line_cells b m (0, 1) (1, 1) (2, 1)).mpr h⟩
    · exact ⟨bit3 2 5 8, by simp [lineMasks],
        (and_line_cells b m (0, 2) (1, 2) (2, 2)).mpr h⟩
    · exact ⟨bit3 0 4 8, by simp [lineMasks],
        (and_line_cells b m (0, 0) (1, 1) (2, 2)).mpr h⟩
    · exact ⟨bit3 2 4 6, by simp [lineMasks],
        (and_line_cells b m (0, 2) (1, 1) (2, 0)).mpr h⟩

theorem lineCheck_some {c1 c2 c3 m : Cell} (h : lineCheck c1 c2 c3 = some m) :
    c1 = m ∧ c2 = m ∧ c3 = m ∧ m ≠ Cell.E := by
  unfold lineCheck at h
  split at h
  · rename_i hc
    obtain ⟨h12, h23, h3⟩ := hc
    injection h with h'
    subst h'
    exact ⟨rfl, h12.symm, (h12.trans h23).symm, by rw [← h23, ← h12] at h3; exact h3⟩
  · cases h

theorem lineCheck_of_eq {c1 c2 c3 m : Cell} (h1 : c1 = m) (h2 : c2 = m) (h3 : c3 = m)
    (hm : m ≠ Cell.E) : lineCheck c1 c2 c3 = some m := by
  subst h1; subst h2; subst h3
  simp [lineCheck, hm]

theorem lineCheck_eq_none {c1 c2 c3 : Cell}
    (hX : ¬(c1 = Cell.X ∧ c2 = Cell.X ∧ c3 = Cell.X))
    (hO : ¬(c1 = Cell.O ∧ c2 = Cell.O ∧ c3 = Cell.O)) : lineCheck c1 c2 c3 = none := by
  unfold lineCheck
  rw [if_neg]
  rintro ⟨h12, h23, h3⟩
  cases hc : c3 with
  | E => exact h3 hc
  | X => exact hX ⟨h12.trans (h23.trans hc), h23.trans hc, hc⟩
  | O => exact hO ⟨h12.trans (h23.trans hc), h23.trans hc, hc⟩

theorem winner_some_hasLine {b : Board} {m : Cell} (h : winner b = some m) :
    hasLine b m ∧ m ≠ Cell.E := by
  unfold winner at h
  unfold hasLine
  rcases h1 : lineCheck (b 0 0) (b 0 1) (b 0 2) with _ | w1 <;> rw [h1] at h
  case some =>
    simp only [Option.orElse, Option.some.injEq] at h
    subst h
    obtain ⟨a1, a2, a3, a4⟩ := lineCheck_some h1
    exact ⟨Or.inl ⟨a1, a2, a3⟩, a4⟩
  simp only [Option.orElse] at h
  rcases h2 : lineCheck (b 0 0) (b 1 0) (b 2 0) with _ | w2 <;> rw [h2] at h
  case some =>
    simp only [Option.orElse, Option.some.injEq] at h
    subst h
    obtain ⟨a1, a2, a3, a4⟩ := lineCheck_some h2
    exact ⟨Or.inr (Or.inr (Or.inr (Or.inl ⟨a1, a2, a3⟩))), a4⟩
  simp only [Option.orElse] at h
  rcases h3 : lineCheck (b 1 0) (b 1 1) (b 1 2) with _ | w3 <;> rw [h3] at h
  case some =>
    simp only [Option.orElse, Option.some.injEq] at h
    subst h
    obtain ⟨a1, a2, a3, a4⟩ := lineCheck_some h3
    exact ⟨Or.inr (Or.inl ⟨a1, a2, a3⟩), a4⟩
  simp only [Option.orElse] at h
  rcases h4 : lineCheck (b 0 1) (b 1 1) (b 2 1) with _ | w4 <;> rw [h4] at h
  case some =>
    simp only [Option.orElse, Option.some.injEq] at h
    subst h
    obtain ⟨a1, a2, a3, a4⟩ := lineCheck_some h4
    exact ⟨Or.inr (Or.inr (Or.inr (Or.inr (Or.inl ⟨a1, a2, a3⟩)))), a4⟩
  simp only [Option.orElse] at h
  rcases h5 : lineCheck (b 2 0) (b 2 1) (b 2 2) with _ | w5 <;> rw [h5] at h
  case some =>
    simp only [Option.orElse, Option.some.injEq] at h
    subst h
    obtain ⟨a1, a2, a3, a4⟩ := lineCheck_some h5
    exact ⟨Or.inr (Or.inr (Or.inl ⟨a1, a2, a3⟩)), a4⟩
  simp only [Option.orElse] at h
  rcases h6 : lineCheck (b 0 2) (b 1 2) (b 2 2) with _ | w6 <;> rw [h6] at h
  case some =>
    simp only [Option.orElse, Option.some.injEq] at h
    subst h
    obtain ⟨a1, a2, a3, a4⟩ := lineCheck_some h6
    exact ⟨Or.inr (Or.inr (Or.inr (Or.inr (Or.inr (Or.inl ⟨a1, a2, a3⟩))))), a4⟩
  simp only [Option.orElse] at h
  rcases h7 : lineCheck (b 0 0) (b 1 1) (b 2 2) with _ | w7 <;> rw [h7] at h
  case some =>
    simp only [Option.orElse, Option.some.injEq] at h
    subst h
    obtain ⟨a1, a2, a3, a4⟩ := lineCheck_some h7
    exact ⟨Or.inr (Or.inr (Or.inr (Or.inr (Or.inr (Or.inr (Or.inl ⟨a1, a2, a3⟩)))))), a4⟩
  simp only [Option.orElse] at h
  obtain ⟨a1, a2, a3, a4⟩ := lineCheck_some h
  exact ⟨Or.inr (Or.inr (Or.inr (Or.inr (Or.inr (Or.inr (Or.inr ⟨a1, a2, a3⟩)))))), a4⟩

theorem winner_none_of_no_line {b : Board} (hX : ¬hasLine b Cell.X)
    (hO : ¬hasLine b Cell.O) : winner b = none := by
  unfold hasLine at hX hO
  simp only [not_or] at hX hO
  obtain ⟨x1, x2, x3, x4, x5, x6, x7, x8⟩ := hX
  obtain ⟨o1, o2, o3, o4, o5, o6, o7, o8⟩ := hO
  unfold winner
  rw [lineCheck_eq_none x1 o1]
  simp only [Option.orElse]
  rw [lineCheck_eq_none x4 o4]
  simp only [Option.orElse]
  rw [lineCheck_eq_none x2 o2]
  simp only [Option.orElse]
  rw [lineCheck_eq_none x5 o5]
  simp only [Option.orElse]
  rw [lineCheck_eq_none x3 o3]
  simp only [Option.orElse]
  rw [lineCheck_eq_none x6 o6]
  simp only [Option.orElse]
  rw [lineCheck_eq_none x7 o7]
  simp only [Option.orElse]
  exact lineCheck_eq_none x8 o8

theorem winner_none_lineChecks {b : Board} (h : winner b = none) :
    lineCheck (b 0 0) (b 0 1) (b 0 2) = none ∧ lineCheck (b 0 0) (b 1 0) (b 2 0) = none ∧
    lineCheck (b 1 0) (b 1 1) (b 1 2) = none ∧ lineCheck (b 0 1) (b 1 1) (b 2 1) = none ∧
    lineCheck (b 2 0) (b 2 1) (b 2 2) = none ∧ lineCheck (b 0 2) (b 1 2) (b 2 2) = none ∧
    lineCheck (b 0 0) (b 1 1) (b 2 2) = none ∧ lineCheck (b 0 2) (b 1 1) (b 2 0) = none := by
  unfold winner at h
  rcases h1 : lineCheck (b 0 0) (b 0 1) (b 0 2) with _ | w1 <;> rw [h1] at h
  case some => simp at h
  simp only [Option.orElse] at h
  rcases h2 : lineCheck (b 0 0) (b 1 0) (b 2 0) with _ | w2 <;> rw [h2] at h
  case some => simp at h
  simp only [Option.orElse] at h
  rcases h3 : lineCheck (b 1 0) (b 1 1) (b 1 2) with _ | w3 <;> rw [h3] at h
  case some => simp at h
  simp only [Option.orElse] at h
  rcases h4 : lineCheck (b 0 1) (b 1 1) (b 2 1) with _ | w4 <;> rw [h4] at h
  case some => simp at h
  simp only [Option.orElse] at h
  rcases h5 : lineCheck (b 2 0) (b 2 1) (b 2 2) with _ | w5 <;> rw [h5] at h
  case some => simp at h
  simp only [Option.orElse] at h
  rcases h6 : lineCheck (b 0 2) (b 1 2) (b 2 2) with _ | w6 <;> rw [h6] at h
  case some => simp at h
  simp only [Option.orElse] at h
  rcases h7 : lineCheck (b 0 0) (b 1 1) (b 2 2) with _ | w7 <;> rw [h7] at h
  case some => simp at h
  simp only [Option.orElse] at h
  exact ⟨rfl, rfl, rfl, rfl, rfl, rfl, rfl, h⟩

theorem winner_X_of_line {b : Board} (hX : hasLine b Cell.X)
    (hO : ¬hasLine b Cell.O) : winner b = some Cell.X := by
  rcases hw : winner b with _ | w
  · exfalso
    obtain ⟨c1, c2, c3, c4, c5, c6, c7, c8⟩ := winner_none_lineChecks hw
    have hne : Cell.X ≠ Cell.E := by intro h; cases h
    unfold hasLine at hX
    rcases hX with h | h | h | h | h | h | h | h
    · rw [lineCheck_of_eq h.1 h.2.1 h.2.2 hne] at c1; cases c1
    · rw [lineCheck_of_eq h.1 h.2.1 h.2.2 hne] at c3; cases c3
    · rw [lineCheck_of_eq h.1 h.2.1 h.2.2 hne] at c5; cases c5
    · rw [lineCheck_of_eq h.1 h.2.1 h.2.2 hne] at c2; cases c2
    · rw [lineCheck_of_eq h.1 h.2.1 h.2.2 hne] at c4; cases c4
    · rw [lineCheck_of_eq h.1 h.2.1 h.2.2 hne] at c6; cases c6
    · rw [lineCheck_of_eq h.1 h.2.1 h.2.2 hne] at c7; cases c7
    · rw [lineCheck_of_eq h.1 h.2.1 h.2.2 hne] at c8; cases c8
  · obtain ⟨hl, hne⟩ := winner_some_hasLine hw
    cases w with
    | E => exact absurd rfl hne
    | X => rfl
    | O => exact absurd hl hO

theorem winner_O_of_line {b : Board} (hO : hasLine b Cell.O)
    (hX : ¬hasLine b Cell.X) : winner b = some Cell.O := by
  rcases hw : winner b with _ | w
  · exfalso
    obtain ⟨c1, c2, c3, c4, c5, c6, c7, c8⟩ := winner_none_lineChecks hw
    have hne : Cell.O ≠ Cell.E := by intro h; cases h
    unfold hasLine at hO
    rcases hO with h | h | h | h | h | h | h | h
    · rw [lineCheck_of_eq h.1 h.2.1 h.2.2 hne] at c1; cases c1
    · rw [lineCheck_of_eq h.1 h.2.1 h.2.2 hne] at c3; cases c3
    · rw [lineCheck_of_eq h.1 h.2.1 h.2.2 hne] at c5; cases c5
    · rw [lineCheck_of_eq h.1 h.2.1 h.2.2 hne] at c2; cases c2
    · rw [lineCheck_of_eq h.1 h.2.1 h.2.2 hne] at c4; cases c4
    · rw [lineCheck_of_eq h.1 h.2.1 h.2.2 hne] at c6; cases c6
    · rw [lineCheck_of_eq h.1 h.2.1 h.2.2 hne] at c7; cases c7
    · rw [lineCheck_of_eq h.1 h.2.1 h.2.2 hne] at c8; cases c8
  · obtain ⟨hl, hne⟩ := winner_some_hasLine hw
    cases w with
    | E => exact absurd rfl hne
    | X => exact absurd hl hX
    | O => rfl

theorem unbit_bitIdx : ∀ p : Act, unbit (bitIdx p) = p := by decide

theorem maskOf_resultU_set (b : Board) (a : Act) (he : b a.1 a.2 = Cell.E)
    {m : Cell} (hm : player b = m) :
    maskOf (resultU b a) m = maskOf b m ||| (1 <<< bitIdx a) := by
  apply Nat.eq_of_testBit_eq
  intro k
  rw [Bool.eq_iff_iff, Nat.testBit_or, Bool.or_eq_true, one_shiftLeft_testBit]
  rw [maskOf, maskOf, testBit_maskOf, testBit_maskOf]
  constructor
  · rintro ⟨p, hmem, hk, hcell⟩
    by_cases hpa : p = a
    · subst hpa
      right
      exact hk.symm
    · have hpair : (p.1, p.2) = p := rfl
      left
      exact ⟨p, hmem, hk, by rwa [resultU_other b a p.1 p.2 (hpair ▸ hpa)] at hcell⟩
  · rintro (⟨p, hmem, hk, hcell⟩ | hk)
    · refine ⟨p, hmem, hk, ?_⟩
      by_cases hpa : p = a
      · subst hpa
        rw [he] at hcell
        exact absurd (hm.trans hcell.symm) (player_ne_E b)
      · have hpair : (p.1, p.2) = p := rfl
        rwa [resultU_other b a p.1 p.2 (hpair ▸ hpa)]
    · refine ⟨a, mem_allPairs a, hk.symm, ?_⟩
      rw [resultU_self b a]
      exact hm

theorem maskOf_resultU_keep (b : Board) (a : Act) (he : b a.1 a.2 = Cell.E)
    {m : Cell} (hmE : m ≠ Cell.E) (hm : player b ≠ m) :
    maskOf (resultU b a) m = maskOf b m := by
  apply Nat.eq_of_testBit_eq
  intro k
  rw [Bool.eq_iff_iff]
  rw [maskOf, maskOf, testBit_maskOf, testBit_maskOf]
  constructor
  · rintro ⟨p, hmem, hk, hcell⟩
    by_cases hpa : p = a
    · subst hpa
      rw [resultU_self b p] at hcell
      exact absurd hcell hm
    · have hpair : (p.1, p.2) = p := rfl
      exact ⟨p, hmem, hk, by rwa [resultU_other b a p.1 p.2 (hpair ▸ hpa)] at hcell⟩
  · rintro ⟨p, hmem, hk, hcell⟩
    by_cases hpa : p = a
    · subst hpa
      rw [he] at hcell
      exact absurd hcell.symm hmE
    · have hpair : (p.1, p.2) = p := rfl
      exact ⟨p, hmem, hk, by rwa [resultU_other b a p.1 p.2 (hpair ▸ hpa)]⟩

theorem cellFree_iff (b : Board) (k : Nat) (hk : k < 9) :
    cellFree (maskOf b Cell.X) (maskOf b Cell.O) k = true ↔
      b (unbit k).1 (unbit k).2 = Cell.E := by
  unfold cellFree
  rw [beq_iff_eq]
  have hkk : bitIdx (unbit k) = k := bitIdx_unbit k hk
  constructor
  · intro h
    have hb := congrArg (fun x => x.testBit k) h
    simp only [Nat.testBit_and, Nat.testBit_or, Nat.zero_testBit] at hb
    have h1 : (1 <<< k).testBit k = true := (one_shiftLeft_testBit k k).mpr rfl
    rw [h1, Bool.and_true] at hb
    rw [Bool.or_eq_false_iff] at hb
    obtain ⟨hx, ho⟩ := hb
    rcases hcell : b (unbit k).1 (unbit k).2 with _ | _ | _
    · rfl
    · exfalso
      have := (testBit_maskOf_cell b Cell.X (unbit k)).mpr hcell
      rw [hkk, hx] at this
      cases this
    · exfalso
      have := (testBit_maskOf_cell b Cell.O (unbit k)).mpr hcell
      rw [hkk, ho] at this
      cases this
  · intro h
    apply Nat.eq_of_testBit_eq
    intro n
    simp only [Nat.testBit_and, Nat.testBit_or, Nat.zero_testBit]
    by_cases hn : n = k
    · subst hn
      have hx : (maskOf b Cell.X).testBit n = false := by
        rw [Bool.eq_false_iff]
        intro hc
        have hc' : (maskOf b Cell.X).testBit (bitIdx (unbit n)) = true := by rwa [hkk]
        have := (testBit_maskOf_cell b Cell.X (unbit n)).mp hc'
        rw [h] at this
        cases this
      have ho : (maskOf b Cell.O).testBit n = false := by
        rw [Bool.eq_false_iff]
        intro hc
        have hc' : (maskOf b Cell.O).testBit (bitIdx (unbit n)) = true := by rwa [hkk]
        have := (testBit_maskOf_cell b Cell.O (unbit n)).mp hc'
        rw [h] at this
        cases this
      rw [hx, ho]
      rfl
    · have : (1 <<< k).testBit n = false := by
        rw [Bool.eq_false_iff]
        intro hc
        exact hn ((one_shiftLeft_testBit k n).mp hc)
      rw [this, Bool.and_false]

theorem mem_free_iff (b : Board) (k : Nat) :
    k ∈ bitOrder.filter (cellFree (maskOf b Cell.X) (maskOf b Cell.O)) ↔
      (k < 9 ∧ b (unbit k).1 (unbit k).2 = Cell.E) := by
  rw [List.mem_filter]
  constructor
  · rintro ⟨hmem, hfree⟩
    have hk := mem_bitOrder_lt k hmem
    exact ⟨hk, (cellFree_iff b k hk).mp hfree⟩
  · rintro ⟨hk, hcell⟩
    exact ⟨mem_bitOrder_of_lt k hk, (cellFree_iff b k hk).mpr hcell⟩

theorem free_isEmpty_iff (b : Board) :
    (bitOrder.filter (cellFree (maskOf b Cell.X) (maskOf b Cell.O))).isEmpty = true ↔
      actionsList b = [] := by
  rw [List.isEmpty_iff]
  constructor
  · intro h
    by_contra hne
    obtain ⟨p, hp⟩ := List.exists_mem_of_ne_nil _ hne
    have hcell := (mem_actionsList b p).mp hp
    have hmem : bitIdx p ∈ bitOrder.filter (cellFree (maskOf b Cell.X) (maskOf b Cell.O)) := by
      rw [mem_free_iff]
      exact ⟨bitIdx_lt p, by rwa [unbit_bitIdx p]⟩
    rw [h] at hmem
    cases hmem
  · intro h
    by_contra hne
    obtain ⟨k, hk⟩ := List.exists_mem_of_ne_nil _ hne
    obtain ⟨hk9, hcell⟩ := (mem_free_iff b k).mp hk
    have : unbit k ∈ actionsList b := (mem_actionsList b (unbit k)).mpr hcell
    rw [h] at this
    cases this

theorem canDrawX_sound : ∀ (f : Nat) (b : Board), Valid b → emptyCount b ≤ f →
    canDrawX f (player b == Cell.X) (maskOf b Cell.X) (maskOf b Cell.O) = true →
    0 ≤ specMinimaxValue f b := by
  intro f
  induction f with
  | zero =>
    intro b _ _ h
    rw [canDrawX, Bool.not_eq_true'] at h
    have hO : ¬hasLine b Cell.O := fun hl => by
      rw [(maskWin_iff b Cell.O).mpr hl] at h
      cases h
    show (0 : Int) ≤ utility b
    rcases hw : winner b with _ | w
    · rw [utility_of_winner_none hw]
    · cases w with
      | E => exact absurd rfl (winner_some_hasLine hw).2
      | X => rw [utility_of_winner_X hw]; norm_num
      | O => exact absurd (winner_some_hasLine hw).1 hO
  | succ f ih =>
    intro b hv hec h
    simp only [canDrawX] at h
    by_cases hwo : maskWin (maskOf b Cell.O) = true
    · rw [if_pos hwo] at h
      cases h
    · rw [if_neg hwo] at h
      have hOline : ¬hasLine b Cell.O := fun hl => hwo ((maskWin_iff b Cell.O).mpr hl)
      by_cases hwx : maskWin (maskOf b Cell.X) = true
      · have hXline := (maskWin_iff b Cell.X).mp hwx
        have hw := winner_X_of_line hXline hOline
        rw [sMV_terminal _ (terminal_of_winner hw), utility_of_winner_X hw]
        norm_num
      · rw [if_neg hwx] at h
        have hXline : ¬hasLine b Cell.X := fun hl => hwx ((maskWin_iff b Cell.X).mpr hl)
        have hwinner : winner b = none := winner_none_of_no_line hXline hOline
        by_cases hfe : (bitOrder.filter
            (cellFree (maskOf b Cell.X) (maskOf b Cell.O))).isEmpty = true
        · have hnil : actionsList b = [] := (free_isEmpty_iff b).mp hfe
          rw [sMV_terminal _ (terminal_of_full hnil), utility_of_winner_none hwinner]
        · rw [if_neg hfe] at h
          have hne : actionsList b ≠ [] := fun hnil => hfe ((free_isEmpty_iff b).mpr hnil)
          have hterm : terminal b = false := terminal_false_of hwinner hne
          by_cases hxt : player b = Cell.X
          · rw [if_pos (show (player b == Cell.X) = true by simp [hxt])] at h
            obtain ⟨k, hkfree, hrec⟩ := List.any_eq_true.mp h
            obtain ⟨hk9, hcell⟩ := (mem_free_iff b k).mp hkfree
            have hmem : unbit k ∈ actionsList b := (mem_actionsList b (unbit k)).mpr hcell
            have hmaskX : maskOf (resultU b (unbit k)) Cell.X
                = maskOf b Cell.X ||| (1 <<< k) := by
              rw [maskOf_resultU_set b (unbit k) hcell hxt, bitIdx_unbit k hk9]
            have hmaskO : maskOf (resultU b (unbit k)) Cell.O = maskOf b Cell.O :=
              maskOf_resultU_keep b (unbit k) hcell (by intro hc; cases hc)
                (by rw [hxt]; intro hc; cases hc)
            have hpc : player (resultU b (unbit k)) = Cell.O :=
              player_resultU_X b (unbit k) hcell hxt
            have hvc : Valid (resultU b (unbit k)) := Valid_resultU b (unbit k) hcell hv
            have hecc : emptyCount (resultU b (unbit k)) ≤ f := by
              have := emptyCount_resultU b (unbit k) hcell
              omega
            have hrec' : canDrawX f (player (resultU b (unbit k)) == Cell.X)
                (maskOf (resultU b (unbit k)) Cell.X)
                (maskOf (resultU b (unbit k)) Cell.O) = true := by
              rw [show (player (resultU b (unbit k)) == Cell.X) = false by simp [hpc],
                hmaskX, hmaskO]
              exact hrec
            have hchild := ih (resultU b (unbit k)) hvc hecc hrec'
            rw [sMV_succ_X hterm hxt]
            exact le_trans hchild (foldl_max_ge_elem _ (actionsList b) (-2) (unbit k) hmem)
          · have hxo : player b = Cell.O := (player_cases b).resolve_left hxt
            rw [if_neg (show ¬((player b == Cell.X) = true) by simp [hxo])] at h
            rw [sMV_succ_O hterm hxt]
            apply foldl_min_ge _ _ _ _ (by norm_num)
            intro a ha
            have hcell := (mem_actionsList b a).mp ha
            have hfree : bitIdx a ∈ bitOrder.filter
                (cellFree (maskOf b Cell.X) (maskOf b Cell.O)) := by
              rw [mem_free_iff]
              exact ⟨bitIdx_lt a, by rwa [unbit_bitIdx a]⟩
            have hrec := List.all_eq_true.mp h (bitIdx a) hfree
            have hmaskO : maskOf (resultU b a) Cell.O
                = maskOf b Cell.O ||| (1 <<< bitIdx a) :=
              maskOf_resultU_set b a hcell hxo
            have hmaskX : maskOf (resultU b a) Cell.X = maskOf b Cell.X :=
              maskOf_resultU_keep b a hcell (by intro hc; cases hc)
                (by rw [hxo]; intro hc; cases hc)
            have hpc : player (resultU b a) = Cell.X := player_resultU_O b a hcell hv hxo
            have hvc := Valid_resultU b a hcell hv
            have hecc : emptyCount (resultU b a) ≤ f := by
              have := emptyCount_resultU b a hcell
              omega
            apply ih (resultU b a) hvc hecc
            rw [show (player (resultU b a) == Cell.X) = true by simp [hpc], hmaskX, hmaskO]
            exact hrec

theorem canDrawO_sound : ∀ (f : Nat) (b : Board), Valid b → emptyCount b ≤ f →
    canDrawO f (player b == Cell.X) (maskOf b Cell.X) (maskOf b Cell.O) = true →
    specMinimaxValue f b ≤ 0 := by
  intro f
  induction f with
  | zero =>
    intro b _ _ h
    rw [canDrawO, Bool.not_eq_true'] at h
    have hX : ¬hasLine b Cell.X := fun hl => by
      rw [(maskWin_iff b Cell.X).mpr hl] at h
      cases h
    show utility b ≤ (0 : Int)
    rcases hw : winner b with _ | w
    · rw [utility_of_winner_none hw]
    · cases w with
      | E => exact absurd rfl (winner_some_hasLine hw).2
      | X => exact absurd (winner_some_hasLine hw).1 hX
      | O => rw [utility_of_winner_O hw]; norm_num
  | succ f ih =>
    intro b hv hec h
    simp only [canDrawO] at h
    by_cases hwx : maskWin (maskOf b Cell.X) = true
    · rw [if_pos hwx] at h
      cases h
    · rw [if_neg hwx] at h
      have hXline : ¬hasLine b Cell.X := fun hl => hwx ((maskWin_iff b Cell.X).mpr hl)
      by_cases hwo : maskWin (maskOf b Cell.O) = true
      · have hOline := (maskWin_iff b Cell.O).mp hwo
        have hw := winner_O_of_line hOline hXline
        rw [sMV_terminal _ (terminal_of_winner hw), utility_of_winner_O hw]
        norm_num
      · rw [if_neg hwo] at h
        have hOline : ¬hasLine b Cell.O := fun hl => hwo ((maskWin_iff b Cell.O).mpr hl)
        have hwinner : winner b = none := winner_none_of_no_line hXline hOline
        by_cases hfe : (bitOrder.filter
            (cellFree (maskOf b Cell.X) (maskOf b Cell.O))).isEmpty = true
        · have hnil : actionsList b = [] := (free_isEmpty_iff b).mp hfe
          rw [sMV_terminal _ (terminal_of_full hnil), utility_of_winner_none hwinner]
        · rw [if_neg hfe] at h
          have hne : actionsList b ≠ [] := fun hnil => hfe ((free_isEmpty_iff b).mpr hnil)
          have hterm : terminal b = false := terminal_false_of hwinner hne
          by_cases hxt : player b = Cell.X
          · rw [if_pos (show (player b == Cell.X) = true by simp [hxt])] at h
            rw [sMV_succ_X hterm hxt]
            apply foldl_max_le _ _ _ _ (by norm_num)
            intro a ha
            have hcell := (mem_actionsList b a).mp ha
            have hfree : bitIdx a ∈ bitOrder.filter
                (cellFree (maskOf b Cell.X) (maskOf b Cell.O)) := by
              rw [mem_free_iff]
              exact ⟨bitIdx_lt a, by rwa [unbit_bitIdx a]⟩
            have hrec := List.all_eq_true.mp h (bitIdx a) hfree
            have hmaskX : maskOf (resultU b a) Cell.X
                = maskOf b Cell.X ||| (1 <<< bitIdx a) :=
              maskOf_resultU_set b a hcell hxt
            have hmaskO : maskOf (resultU b a) Cell.O = maskOf b Cell.O :=
              maskOf_resultU_keep b a hcell (by intro hc; cases hc)
                (by rw [hxt]; intro hc; cases hc)
            have hpc : player (resultU b a) = Cell.O := player_resultU_X b a hcell hxt
            have hvc := Valid_resultU b a hcell hv
            have hecc : emptyCount (resultU b a) ≤ f := by
              have := emptyCount_resultU b a hcell
              omega
            apply ih (resultU b a) hvc hecc
            rw [show (player (resultU b a) == Cell.X) = false by simp [hpc], hmaskX, hmaskO]
            exact hrec
          · have hxo : player b = Cell.O := (player_cases b).resolve_left hxt
            rw [if_neg (show ¬((player b == Cell.X) = true) by simp [hxo])] at h
            obtain ⟨k, hkfree, hrec⟩ := List.any_eq_true.mp h
            obtain ⟨hk9, hcell⟩ := (mem_free_iff b k).mp hkfree
            have hmem : unbit k ∈ actionsList b := (mem_actionsList b (unbit k)).mpr hcell
            have hmaskO : maskOf (resultU b (unbit k)) Cell.O
                = maskOf b Cell.O ||| (1 <<< k) := by
              rw [maskOf_resultU_set b (unbit k) hcell hxo, bitIdx_unbit k hk9]
            have hmaskX : maskOf (resultU b (unbit k)) Cell.X = maskOf b Cell.X :=
              maskOf_resultU_keep b (unbit k) hcell (by intro hc; cases hc)
                (by rw [hxo]; intro hc; cases hc)
            have hpc : player (resultU b (unbit k)) = Cell.X :=
              player_resultU_O b (unbit k) hcell hv hxo
            have hvc : Valid (resultU b (unbit k)) := Valid_resultU b (unbit k) hcell hv
            have hecc : emptyCount (resultU b (unbit k)) ≤ f := by
              have := emptyCount_resultU b (unbit k) hcell
              omega
            have hrec' : canDrawO f (player (resultU b (unbit k)) == Cell.X)
                (maskOf (resultU b (unbit k)) Cell.X)
                (maskOf (resultU b (unbit k)) Cell.O) = true := by
              rw [show (player (resultU b (unbit k)) == Cell.X) = true by simp [hpc],
                hmaskX, hmaskO]
              exact hrec
            have hchild := ih (resultU b (unbit k)) hvc hecc hrec'
            rw [sMV_succ_O hterm hxt]
            exact le_trans (foldl_min_le_elem _ (actionsList b) 2 (unbit k) hmem) hchild

theorem sMV_initChild : ∀ a : Act, specMinimaxValue 8 (resultU initial_state a) = 0 := by
  have key : ∀ a : Act,
      canDrawX 8 (player (resultU initial_state a) == Cell.X)
        (maskOf (resultU initial_state a) Cell.X)
        (maskOf (resultU initial_state a) Cell.O) = true →
      canDrawO 8 (player (resultU initial_state a) == Cell.X)
        (maskOf (resultU initial_state a) Cell.X)
        (maskOf (resultU initial_state a) Cell.O) = true →
      Valid (resultU initial_state a) →
      emptyCount (resultU initial_state a) ≤ 8 →
      specMinimaxValue 8 (resultU initial_state a) = 0 := by
    intro a hX hO hv he
    exact le_antisymm (canDrawO_sound 8 _ hv he hO) (canDrawX_sound 8 _ hv he hX)
  intro a
  rcases a with ⟨i, j⟩
  fin_cases i <;> fin_cases j <;>
    exact key _ (by decide) (by decide) ⟨by decide, by decide⟩ (by decide)

theorem maxLoop_spec (w : Act → Int) (eval : Act → Int → Int) :
    ∀ (l : List Act) (bound m : Int),
      (∀ a ∈ l, -1 ≤ w a ∧ w a ≤ 1) →
      (∀ a ∈ l, ∀ m', eval a m' = w a ∨ (w a < m' ∧ eval a m' = m')) →
      m < 1 →
      maxLoop eval bound l m = l.foldl (fun acc a => max acc (w a)) m
      ∨ (bound < l.foldl (fun acc a => max acc (w a)) m ∧ maxLoop eval bound l m = bound) := by
  intro l
  induction l with
  | nil =>
    intro bound m _ _ _
    left
    rfl
  | cons a rest ih =>
    intro bound m hrange hchild hm1
    have hwa := hrange a (List.mem_cons_self a rest)
    have hrange' := fun x hx => hrange x (List.mem_cons_of_mem a hx)
    have hchild' := fun x hx => hchild x (List.mem_cons_of_mem a hx)
    rcases hchild a (List.mem_cons_self a rest) m with ht | ⟨hlt, ht⟩
    · by_cases h1 : eval a m = 1
      · have hw1 : w a = 1 := ht.symm.trans h1
        left
        rw [show maxLoop eval bound (a :: rest) m = 1 from by simp [maxLoop, h1]]
        have hseed : max m (w a) = 1 := by
          rw [hw1]
          exact max_eq_right (le_of_lt hm1)
        have hge : (1 : Int) ≤ rest.foldl (fun acc x => max acc (w x)) (max m (w a)) := by
          rw [hseed]
          exact foldl_max_ge_seed w rest 1
        have hle : rest.foldl (fun acc x => max acc (w x)) (max m (w a)) ≤ 1 :=
          foldl_max_le w rest (max m (w a)) 1 (le_of_eq hseed)
            (fun x hx => (hrange' x hx).2)
        simp only [List.foldl_cons]
        omega
      · by_cases h2 : bound < eval a m
        · right
          have hmem : w a ≤ (a :: rest).foldl (fun acc x => max acc (w x)) m :=
            foldl_max_ge_elem w (a :: rest) m a (List.mem_cons_self a rest)
          constructor
          · omega
          · simp [maxLoop, h1, h2]
        · have step : maxLoop eval bound (a :: rest) m
              = maxLoop eval bound rest (max (eval a m) m) := by
            simp [maxLoop, h1, h2]
          have hle1 : w a < 1 := by omega
          have hmax1 : max (w a) m < 1 := max_lt hle1 hm1
          have := ih bound (max (w a) m) hrange' hchild' hmax1
          rw [step, ht]
          simp only [List.foldl_cons]
          rw [max_comm m (w a)]
          exact this
    · by_cases h1 : eval a m = 1
      · exfalso
        omega
      · by_cases h2 : bound < eval a m
        · right
          have hseed := foldl_max_ge_seed w rest (max m (w a))
          have hseed2 : m ≤ max m (w a) := le_max_left m (w a)
          constructor
          · simp only [List.foldl_cons]
            omega
          · simp [maxLoop, h1, h2]
        · have step : maxLoop eval bound (a :: rest) m
              = maxLoop eval bound rest (max (eval a m) m) := by
            simp [maxLoop, h1, h2]
          have hfold : max m (w a) = m := max_eq_left (le_of_lt hlt)
          have := ih bound m hrange' hchild' hm1
          rw [step, ht, max_self]
          simp only [List.foldl_cons]
          rw [hfold]
          exact this

theorem minLoop_spec (w : Act → Int) (eval : Act → Int → Int) :
    ∀ (l : List Act) (bound m : Int),
      (∀ a ∈ l, -1 ≤ w a ∧ w a ≤ 1) →
      (∀ a ∈ l, ∀ m', eval a m' = w a ∨ (m' < w a ∧ eval a m' = m')) →
      -1 < m →
      minLoop eval bound l m = l.foldl (fun acc a => min acc (w a)) m
      ∨ (l.foldl (fun acc a => min acc (w a)) m < bound ∧ minLoop eval bound l m = bound) := by
  intro l
  induction l with
  | nil =>
    intro bound m _ _ _
    left
    rfl
  | cons a rest ih =>
    intro bound m hrange hchild hm1
    have hwa := hrange a (List.mem_cons_self a rest)
    have hrange' := fun x hx => hrange x (List.mem_cons_of_mem a hx)
    have hchild' := fun x hx => hchild x (List.mem_cons_of_mem a hx)
    rcases hchild a (List.mem_cons_self a rest) m with ht | ⟨hlt, ht⟩
    · by_cases h1 : eval a m = -1
      · have hw1 : w a = -1 := ht.symm.trans h1
        left
        rw [show minLoop eval bound (a :: rest) m = -1 from by simp [minLoop, h1]]
        have hseed : min m (w a) = -1 := by
          rw [hw1]
          exact min_eq_right (le_of_lt hm1)
        have hle : rest.foldl (fun acc x => min acc (w x)) (min m (w a)) ≤ -1 := by
          rw [hseed]
          exact foldl_min_le_seed w rest (-1)
        have hge : (-1 : Int) ≤ rest.foldl (fun acc x => min acc (w x)) (min m (w a)) :=
          foldl_min_ge w rest (min m (w a)) (-1) (le_of_eq hseed.symm)
            (fun x hx => (hrange' x hx).1)
        simp only [List.foldl_cons]
        omega
      · by_cases h2 : eval a m < bound
        · right
          have hmem : (a :: rest).foldl (fun acc x => min acc (w x)) m ≤ w a :=
            foldl_min_le_elem w (a :: rest) m a (List.mem_cons_self a rest)
          constructor
          · omega
          · simp [minLoop, h1, h2]
        · have step : minLoop eval bound (a :: rest) m
              = minLoop eval bound rest (min (eval a m) m) := by
            simp [minLoop, h1, h2]
          have hge1 : -1 < w a := by omega
          have hmin1 : -1 < min (w a) m := lt_min hge1 hm1
          have := ih bound (min (w a) m) hrange' hchild' hmin1
          rw [step, ht]
          simp only [List.foldl_cons]
          rw [min_comm m (w a)]
          exact this
    · by_cases h1 : eval a m = -1
      · exfalso
        omega
      · by_cases h2 : eval a m < bound
        · right
          have hseed := foldl_min_le_seed w rest (min m (w a))
          have hseed2 : min m (w a) ≤ m := min_le_left m (w a)
          constructor
          · simp only [List.foldl_cons]
            omega
          · simp [minLoop, h1, h2]
        · have step : minLoop eval bound (a :: rest) m
              = minLoop eval bound rest (min (eval a m) m) := by
            simp [minLoop, h1, h2]
          have hfold : min m (w a) = m := min_eq_left (le_of_lt hlt)
          have := ih bound m hrange' hchild' hm1
          rw [step, ht, min_self]
          simp only [List.foldl_cons]
          rw [hfold]
          exact this

theorem gbu_terminal (sh : Oracle) (f : Nat) (path : List Act) (b : Board) (bound : Int)
    (h : terminal b = true) :
    get_best_utility_value sh f path b bound = utility b := by
  cases f with
  | zero => rfl
  | succ f => simp [get_best_utility_value, h]

theorem gbu_succ_X (sh : Oracle) (f : Nat) (path : List Act) (b : Board) (bound : Int)
    (h : terminal b = false) (hp : player b = Cell.X) :
    get_best_utility_value sh (f + 1) path b bound =
      maxLoop (fun a m => get_best_utility_value sh f (path ++ [a]) (resultU b a) m)
        bound (sh path (actionsList b)) INT_MIN := by
  simp [get_best_utility_value, h, hp]

theorem gbu_succ_O (sh : Oracle) (f : Nat) (path : List Act) (b : Board) (bound : Int)
    (h : terminal b = false) (hp : player b ≠ Cell.X) :
    get_best_utility_value sh (f + 1) path b bound =
      minLoop (fun a m => get_best_utility_value sh f (path ++ [a]) (resultU b a) m)
        bound (sh path (actionsList b)) INT_MAX := by
  simp [get_best_utility_value, h, hp]

theorem INT_MIN_lt : INT_MIN < -1 := by norm_num [INT_MIN]

theorem INT_MAX_gt : 1 < INT_MAX := by norm_num [INT_MAX]

theorem gbu_spec (sh : Oracle) (hsh : PermOracle sh) :
    ∀ (f : Nat) (b : Board) (path : List Act) (bound : Int), Valid b → emptyCount b ≤ f →
      get_best_utility_value sh f path b bound = specMinimaxValue f b
      ∨ (terminal b = false ∧ player b = Cell.X ∧ bound < specMinimaxValue f b ∧
          get_best_utility_value sh f path b bound = bound)
      ∨ (terminal b = false ∧ player b ≠ Cell.X ∧ specMinimaxValue f b < bound ∧
          get_best_utility_value sh f path b bound = bound) := by
  intro f
  induction f with
  | zero =>
    intro b path bound _ _
    left
    rfl
  | succ f ih =>
    intro b path bound hv hec
    by_cases ht : terminal b = true
    · left
      rw [gbu_terminal sh _ path b bound ht, sMV_terminal _ ht]
    · have ht' : terminal b = false := by simpa using ht
      have hperm : (sh path (actionsList b)).Perm (actionsList b) := hsh path (actionsList b)
      have hmem : ∀ a ∈ sh path (actionsList b), a ∈ actionsList b :=
        fun a ha => hperm.mem_iff.mp ha
      rcases player_cases b with hp | hp
      · rw [gbu_succ_X sh f path b bound ht' hp, sMV_succ_X ht' hp]
        have hrange : ∀ a ∈ sh path (actionsList b),
            -1 ≤ specMinimaxValue f (resultU b a) ∧ specMinimaxValue f (resultU b a) ≤ 1 :=
          fun a _ => sMV_range f (resultU b a)
        have hchild : ∀ a ∈ sh path (actionsList b), ∀ m',
            get_best_utility_value sh f (path ++ [a]) (resultU b a) m'
              = specMinimaxValue f (resultU b a)
            ∨ (specMinimaxValue f (resultU b a) < m' ∧
                get_best_utility_value sh f (path ++ [a]) (resultU b a) m' = m') := by
          intro a ha m'
          have hcell := (mem_actionsList b a).mp (hmem a ha)
          have hvc := Valid_resultU b a hcell hv
          have hecc : emptyCount (resultU b a) ≤ f := by
            have := emptyCount_resultU b a hcell
            omega
          have hpc : player (resultU b a) = Cell.O := player_resultU_X b a hcell hp
          rcases ih (resultU b a) (path ++ [a]) m' hvc hecc with h | h | h
          · left
            exact h
          · exact absurd h.2.1 (by rw [hpc]; intro hc; cases hc)
          · right
            exact ⟨h.2.2.1, h.2.2.2⟩
        have hseq : (sh path (actionsList b)).foldl
              (fun acc a => max acc (specMinimaxValue f (resultU b a))) INT_MIN
            = (actionsList b).foldl
              (fun acc a => max acc (specMinimaxValue f (resultU b a))) (-2) := by
          rw [foldl_max_perm _ hperm INT_MIN]
          exact foldl_max_seed_eq _ (actionsList b) INT_MIN (-2)
            (actionsList_ne_nil_of_not_terminal ht')
            (fun a _ => le_trans (le_of_lt INT_MIN_lt) (sMV_range f _).1)
            (fun a _ => le_trans (by norm_num) (sMV_range f _).1)
        rcases maxLoop_spec (fun a => specMinimaxValue f (resultU b a))
            (fun a m => get_best_utility_value sh f (path ++ [a]) (resultU b a) m)
            (sh path (actionsList b)) bound INT_MIN hrange hchild
            (lt_trans INT_MIN_lt (by norm_num)) with h | ⟨hgt, h⟩
        · left
          rw [h, hseq]
        · right
          left
          rw [hseq] at hgt
          exact ⟨ht', hp, hgt, h⟩
      · have hpx : player b ≠ Cell.X := by rw [hp]; intro hc; cases hc
        rw [gbu_succ_O sh f path b bound ht' hpx, sMV_succ_O ht' hpx]
        have hrange : ∀ a ∈ sh path (actionsList b),
            -1 ≤ specMinimaxValue f (resultU b a) ∧ specMinimaxValue f (resultU b a) ≤ 1 :=
          fun a _ => sMV_range f (resultU b a)
        have hchild : ∀ a ∈ sh path (actionsList b), ∀ m',
            get_best_utility_value sh f (path ++ [a]) (resultU b a) m'
              = specMinimaxValue f (resultU b a)
            ∨ (m' < specMinimaxValue f (resultU b a) ∧
                get_best_utility_value sh f (path ++ [a]) (resultU b a) m' = m') := by
          intro a ha m'
          have hcell := (mem_actionsList b a).mp (hmem a ha)
          have hvc := Valid_resultU b a hcell hv
          have hecc : emptyCount (resultU b a) ≤ f := by
            have := emptyCount_resultU b a hcell
            omega
          have hpc : player (resultU b a) = Cell.X := player_resultU_O b a hcell hv hp
          rcases ih (resultU b a) (path ++ [a]) m' hvc hecc with h | h | h
          · left
            exact h
          · right
            exact ⟨h.2.2.1, h.2.2.2⟩
          · exact absurd hpc h.2.1
        have hseq : (sh path (actionsList b)).foldl
              (fun acc a => min acc (specMinimaxValue f (resultU b a))) INT_MAX
            = (actionsList b).foldl
              (fun acc a => min acc (specMinimaxValue f (resultU b a))) 2 := by
          rw [foldl_min_perm _ hperm INT_MAX]
          exact foldl_min_seed_eq _ (actionsList b) INT_MAX 2
            (actionsList_ne_nil_of_not_terminal ht')
            (fun a _ => le_trans (sMV_range f _).2 (le_of_lt INT_MAX_gt))
            (fun a _ => le_trans (sMV_range f _).2 (by norm_num))
        rcases minLoop_spec (fun a => specMinimaxValue f (resultU b a))
            (fun a m => get_best_utility_value sh f (path ++ [a]) (resultU b a) m)
            (sh path (actionsList b)) bound INT_MAX hrange hchild
            (lt_trans (by norm_num) INT_MAX_gt) with h | ⟨hgt, h⟩
        · left
          rw [h, hseq]
        · right
          right
          rw [hseq] at hgt
          exact ⟨ht', hpx, hgt, h⟩

theorem mmMaxLoop_spec (w : Act → Int) (eval : Act → Int → Int) (S : List Act) :
    ∀ (l : List Act) (m : Int) (best : MMRet),
      (∀ a ∈ l, -1 ≤ w a ∧ w a ≤ 1) →
      (∀ a ∈ l, a ∈ S) →
      (∀ a ∈ l, ∀ m', eval a m' = w a ∨ (w a < m' ∧ eval a m' = m')) →
      m < 1 →
      ((m = INT_MIN ∧ best = MMRet.retEmpty) ∨
        (∃ a0, best = MMRet.retAction a0 ∧ a0 ∈ S ∧ w a0 = m ∧ -1 ≤ m)) →
      (∃ a', mmMaxLoop eval l m best = MMRet.retAction a' ∧ a' ∈ S ∧
          w a' = l.foldl (fun acc a => max acc (w a)) m)
      ∨ (l.foldl (fun acc a => max acc (w a)) m = INT_MIN ∧
          mmMaxLoop eval l m best = MMRet.retEmpty) := by
  intro l
  induction l with
  | nil =>
    intro m best _ _ _ _ hR
    rcases hR with ⟨hm, hbest⟩ | ⟨a0, hb, hS, hw0, _⟩
    · right
      rw [hbest, hm]
      exact ⟨rfl, rfl⟩
    · left
      exact ⟨a0, hb, hS, hw0⟩
  | cons a rest ih =>
    intro m best hrange hS hchild hm1 hR
    have hwa := hrange a (List.mem_cons_self a rest)
    have hrange' := fun x hx => hrange x (List.mem_cons_of_mem a hx)
    have hS' := fun x hx => hS x (List.mem_cons_of_mem a hx)
    have hchild' := fun x hx => hchild x (List.mem_cons_of_mem a hx)
    rcases hchild a (List.mem_cons_self a rest) m with ht | ⟨hlt, ht⟩
    · by_cases h1 : eval a m = 1
      · have hw1 : w a = 1 := ht.symm.trans h1
        left
        refine ⟨a, by simp [mmMaxLoop, h1], hS a (List.mem_cons_self a rest), ?_⟩
        have hseed : max m (w a) = 1 := by
          rw [hw1]
          exact max_eq_right (le_of_lt hm1)
        have hge : (1 : Int) ≤ rest.foldl (fun acc x => max acc (w x)) (max m (w a)) := by
          rw [hseed]
          exact foldl_max_ge_seed w rest 1
        have hle : rest.foldl (fun acc x => max acc (w x)) (max m (w a)) ≤ 1 :=
          foldl_max_le w rest (max m (w a)) 1 (le_of_eq hseed)
            (fun x hx => (hrange' x hx).2)
        simp only [List.foldl_cons]
        omega
      · by_cases h2 : m < eval a m
        · have step : mmMaxLoop eval (a :: rest) m best
              = mmMaxLoop eval rest (eval a m) (MMRet.retAction a) := by
            simp [mmMaxLoop, h1, h2]
          have hR' : (eval a m = INT_MIN ∧ MMRet.retAction a = MMRet.retEmpty) ∨
              (∃ a0, MMRet.retAction a = MMRet.retAction a0 ∧ a0 ∈ S ∧
                w a0 = eval a m ∧ -1 ≤ eval a m) := by
            right
            exact ⟨a, rfl, hS a (List.mem_cons_self a rest), ht.symm, by omega⟩
          have hm1' : eval a m < 1 := by omega
          have := ih (eval a m) (MMRet.retAction a) hrange' hS' hchild' hm1' hR'
          rw [step]
          have hfold : max m (w a) = eval a m := by
            rw [ht]
            exact max_eq_right (by omega)
          simp only [List.foldl_cons]
          rw [hfold]
          exact this
        · have step : mmMaxLoop eval (a :: rest) m best
              = mmMaxLoop eval rest m best := by
            simp [mmMaxLoop, h1, h2]
          have hfold : max m (w a) = m := max_eq_left (by omega)
          have := ih m best hrange' hS' hchild' hm1 hR
          rw [step]
          simp only [List.foldl_cons]
          rw [hfold]
          exact this
    · by_cases h1 : eval a m = 1
      · exfalso
        omega
      · have h2 : ¬(m < eval a m) := by omega
        have step : mmMaxLoop eval (a :: rest) m best
            = mmMaxLoop eval rest m best := by
          simp [mmMaxLoop, h1, h2]
        have hfold : max m (w a) = m := max_eq_left (le_of_lt hlt)
        have := ih m best hrange' hS' hchild' hm1 hR
        rw [step]
        simp only [List.foldl_cons]
        rw [hfold]
        exact this

theorem mmMinLoop_spec (w : Act → Int) (eval : Act → Int → Int) (S : List Act) :
    ∀ (l : List Act) (m : Int) (best : MMRet),
      (∀ a ∈ l, -1 ≤ w a ∧ w a ≤ 1) →
      (∀ a ∈ l, a ∈ S) →
      (∀ a ∈ l, ∀ m', eval a m' = w a ∨ (m' < w a ∧ eval a m' = m')) →
      -1 < m →
      ((m = INT_MAX ∧ best = MMRet.retEmpty) ∨
        (∃ a0, best = MMRet.retAction a0 ∧ a0 ∈ S ∧ w a0 = m ∧ m ≤ 1)) →
      (∃ a', mmMinLoop eval l m best = MMRet.retAction a' ∧ a' ∈ S ∧
          w a' = l.foldl (fun acc a => min acc (w a)) m)
      ∨ (l.foldl (fun acc a => min acc (w a)) m = INT_MAX ∧
          mmMinLoop eval l m best = MMRet.retEmpty) := by
  intro l
  induction l with
  | nil =>
    intro m best _ _ _ _ hR
    rcases hR with ⟨hm, hbest⟩ | ⟨a0, hb, hS, hw0, _⟩
    · right
      rw [hbest, hm]
      exact ⟨rfl, rfl⟩
    · left
      exact ⟨a0, hb, hS, hw0⟩
  | cons a rest ih =>
    intro m best hrange hS hchild hm1 hR
    have hwa := hrange a (List.mem_cons_self a rest)
    have hrange' := fun x hx => hrange x (List.mem_cons_of_mem a hx)
    have hS' := fun x hx => hS x (List.mem_cons_of_mem a hx)
    have hchild' := fun x hx => hchild x (List.mem_cons_of_mem a hx)
    rcases hchild a (List.mem_cons_self a rest) m with ht | ⟨hlt, ht⟩
    · by_cases h1 : eval a m = -1
      · have hw1 : w a = -1 := ht.symm.trans h1
        left
        refine ⟨a, by simp [mmMinLoop, h1], hS a (List.mem_cons_self a rest), ?_⟩
        have hseed : min m (w a) = -1 := by
          rw [hw1]
          exact min_eq_right (le_of_lt hm1)
        have hle : rest.foldl (fun acc x => min acc (w x)) (min m (w a)) ≤ -1 := by
          rw [hseed]
          exact foldl_min_le_seed w rest (-1)
        have hge : (-1 : Int) ≤ rest.foldl (fun acc x => min acc (w x)) (min m (w a)) :=
          foldl_min_ge w rest (min m (w a)) (-1) (le_of_eq hseed.symm)
            (fun x hx => (hrange' x hx).1)
        simp only [List.foldl_cons]
        omega
      · by_cases h2 : eval a m < m
        · have step : mmMinLoop eval (a :: rest) m best
              = mmMinLoop eval rest (eval a m) (MMRet.retAction a) := by
            simp [mmMinLoop, h1, h2]
          have hR' : (eval a m = INT_MAX ∧ MMRet.retAction a = MMRet.retEmpty) ∨
              (∃ a0, MMRet.retAction a = MMRet.retAction a0 ∧ a0 ∈ S ∧
                w a0 = eval a m ∧ eval a m ≤ 1) := by
            right
            exact ⟨a, rfl, hS a (List.mem_cons_self a rest), ht.symm, by omega⟩
          have hm1' : -1 < eval a m := by omega
          have := ih (eval a m) (MMRet.retAction a) hrange' hS' hchild' hm1' hR'
          rw [step]
          have hfold : min m (w a) = eval a m := by
            rw [ht]
            exact min_eq_right (by omega)
          simp only [List.foldl_cons]
          rw [hfold]
          exact this
        · have step : mmMinLoop eval (a :: rest) m best
              = mmMinLoop eval rest m best := by
            simp [mmMinLoop, h1, h2]
          have hfold : min m (w a) = m := min_eq_left (by omega)
          have := ih m best hrange' hS' hchild' hm1 hR
          rw [step]
          simp only [List.foldl_cons]
          rw [hfold]
          exact this
    · by_cases h1 : eval a m = -1
      · exfalso
        omega
      · have h2 : ¬(eval a m < m) := by omega
        have step : mmMinLoop eval (a :: rest) m best
            = mmMinLoop eval rest m best := by
          simp [mmMinLoop, h1, h2]
        have hfold : min m (w a) = m := min_eq_left (le_of_lt hlt)
        have := ih m best hrange' hS' hchild' hm1 hR
        rw [step]
        simp only [List.foldl_cons]
        rw [hfold]
        exact this

theorem board_of_nine (b : Board) (h : (actionsList b).length = 9) : b = initial_state := by
  have h9 : emptyCount b = allPairs.length := by
    rw [← length_actionsList, h, allPairs_length]
  have hall : ∀ p ∈ allPairs, (b p.1 p.2 == Cell.E) = true :=
    List.countP_eq_length.mp h9
  funext i j
  have := hall (i, j) (mem_allPairs (i, j))
  simpa [initial_state] using this

theorem sMV_init : specMinimaxValue 9 initial_state = 0 := by
  have ht : terminal initial_state = false := by decide
  have hp : player initial_state = Cell.X := by decide
  rw [show (9 : Nat) = 8 + 1 from rfl, sMV_succ_X ht hp]
  have hne : actionsList initial_state ≠ [] := by decide
  obtain ⟨a0, ha0⟩ := List.exists_mem_of_ne_nil _ hne
  apply le_antisymm
  · exact foldl_max_le _ _ _ 0 (by norm_num)
      (fun a _ => le_of_eq (sMV_initChild a))
  · have h1 := foldl_max_ge_elem
      (fun a => specMinimaxValue 8 (resultU initial_state a))
      (actionsList initial_state) (-2) a0 ha0
    simp only [] at h1
    rw [sMV_initChild a0] at h1
    exact h1

theorem sMV_nine_child (b : Board) (a : Act) (hec : emptyCount b ≤ 9)
    (he : b a.1 a.2 = Cell.E) :
    specMinimaxValue 9 (resultU b a) = specMinimaxValue 8 (resultU b a) := by
  have h1 := emptyCount_resultU b a he
  have h8 : emptyCount (resultU b a) ≤ 8 := by omega
  rw [sMV_eq_of_le (resultU b a) h8 (by norm_num),
    sMV_eq_of_le (resultU b a) h8 (by norm_num)]

theorem head_eq_of_cons {l : List Act} {a : Act} {rest : List Act} (h : l = a :: rest)
    (hne : l ≠ []) : l.head hne = a := by
  subst h
  rfl

theorem minimax_spec (sh : Oracle) (hsh : PermOracle sh) (b : Board)
    (hv : Valid b) (ht : terminal b = false) :
    ∃ a, minimax sh b = MMRet.retAction a ∧ a ∈ actionsList b ∧
      specMinimaxValue 9 (resultU b a) = specMinimaxValue 9 b := by
  have hperm : (sh [] (actionsList b)).Perm (actionsList b) := hsh [] (actionsList b)
  have hmem : ∀ a ∈ sh [] (actionsList b), a ∈ actionsList b :=
    fun a ha => hperm.mem_iff.mp ha
  have hec9 : emptyCount b ≤ 9 := emptyCount_le_nine b
  have hlne : sh [] (actionsList b) ≠ [] := by
    intro hnil
    have hp2 := hperm
    rw [hnil] at hp2
    exact actionsList_ne_nil_of_not_terminal ht (List.Perm.eq_nil hp2.symm)
  rcases player_cases b with hp | hp
  · have hchildX : ∀ a ∈ sh [] (actionsList b), ∀ m',
        get_best_utility_value sh 9 [a] (resultU b a) m'
          = specMinimaxValue 9 (resultU b a)
        ∨ (specMinimaxValue 9 (resultU b a) < m' ∧
            get_best_utility_value sh 9 [a] (resultU b a) m' = m') := by
      intro a ha m'
      have hcell := (mem_actionsList b a).mp (hmem a ha)
      have hvc := Valid_resultU b a hcell hv
      have hpc : player (resultU b a) = Cell.O := player_resultU_X b a hcell hp
      rcases gbu_spec sh hsh 9 (resultU b a) [a] m' hvc (emptyCount_le_nine _) with h | h | h
      · left
        exact h
      · exact absurd h.2.1 (by rw [hpc]; intro hc; cases hc)
      · right
        exact ⟨h.2.2.1, h.2.2.2⟩
    by_cases h9 : (sh [] (actionsList b)).length = 9
    · have hlen : (actionsList b).length = 9 := by rw [← hperm.length_eq]; exact h9
      have hbinit : b = initial_state := board_of_nine b hlen
      obtain ⟨a, rest, hcons⟩ := List.exists_cons_of_ne_nil hlne
      have hmemA : a ∈ actionsList b :=
        hmem a (by rw [hcons]; exact List.mem_cons_self a rest)
      refine ⟨a, ?_, hmemA, ?_⟩
      · unfold minimax
        rw [if_neg (by rw [ht]; intro hc; cases hc), if_pos hp]
        simp only [dif_pos h9]
        rw [head_eq_of_cons hcons]
      · have hcell := (mem_actionsList b a).mp hmemA
        rw [sMV_nine_child b a hec9 hcell]
        rw [hbinit] at hcell ⊢
        rw [sMV_initChild a, sMV_init]
    · have hmm_eq : minimax sh b
          = mmMaxLoop (fun a m => get_best_utility_value sh 9 [a] (resultU b a) m)
            (sh [] (actionsList b)) INT_MIN MMRet.retEmpty := by
        unfold minimax
        rw [if_neg (by rw [ht]; intro hc; cases hc), if_pos hp]
        simp only [dif_neg h9]
      have hchain : (sh [] (actionsList b)).foldl
            (fun acc a => max acc (specMinimaxValue 9 (resultU b a))) INT_MIN
          = specMinimaxValue 9 b := by
        rw [foldl_max_perm (fun a => specMinimaxValue 9 (resultU b a)) hperm INT_MIN,
          foldl_max_seed_eq (fun a => specMinimaxValue 9 (resultU b a)) (actionsList b)
            INT_MIN (-2) (actionsList_ne_nil_of_not_terminal ht)
            (fun a _ => le_trans (le_of_lt INT_MIN_lt) (sMV_range 9 _).1)
            (fun a _ => le_trans (by norm_num) (sMV_range 9 _).1)]
        have hr : specMinimaxValue 9 b = (actionsList b).foldl
            (fun acc a => max acc (specMinimaxValue 8 (resultU b a))) (-2) :=
          sMV_succ_X ht hp
        rw [hr]
        exact foldl_max_congr (fun a => specMinimaxValue 9 (resultU b a))
          (fun a => specMinimaxValue 8 (resultU b a)) (actionsList b) (-2)
          (fun a ha => sMV_nine_child b a hec9 ((mem_actionsList b a).mp ha))
      rcases mmMaxLoop_spec (fun a => specMinimaxValue 9 (resultU b a))
          (fun a m => get_best_utility_value sh 9 [a] (resultU b a) m)
          (actionsList b) (sh [] (actionsList b)) INT_MIN MMRet.retEmpty
          (fun a _ => sMV_range 9 _) hmem hchildX
          (lt_trans INT_MIN_lt (by norm_num)) (Or.inl ⟨rfl, rfl⟩)
        with ⟨a', hret, hS, hval⟩ | ⟨hF, _⟩
      · exact ⟨a', hmm_eq.trans hret, hS, hval.trans hchain⟩
      · exfalso
        obtain ⟨a0, ha0⟩ := List.exists_cons_of_ne_nil hlne
        obtain ⟨rest0, hcons0⟩ := ha0
        have hge := foldl_max_ge_elem (fun a => specMinimaxValue 9 (resultU b a))
          (sh [] (actionsList b)) INT_MIN a0
          (by rw [hcons0]; exact List.mem_cons_self a0 rest0)
        have hr1 := (sMV_range 9 (resultU b a0)).1
        have hr2 := INT_MIN_lt
        simp only [] at hge hF
        omega
  · have hpx : player b ≠ Cell.X := by rw [hp]; intro hc; cases hc
    have hchildO : ∀ a ∈ sh [] (actionsList b), ∀ m',
        get_best_utility_value sh 9 [a] (resultU b a) m'
          = specMinimaxValue 9 (resultU b a)
        ∨ (m' < specMinimaxValue 9 (resultU b a) ∧
            get_best_utility_value sh 9 [a] (resultU b a) m' = m') := by
      intro a ha m'
      have hcell := (mem_actionsList b a).mp (hmem a ha)
      have hvc := Valid_resultU b a hcell hv
      have hpc : player (resultU b a) = Cell.X := player_resultU_O b a hcell hv hp
      rcases gbu_spec sh hsh 9 (resultU b a) [a] m' hvc (emptyCount_le_nine _) with h | h | h
      · left
        exact h
      · right
        exact ⟨h.2.2.1, h.2.2.2⟩
      · exact absurd hpc h.2.1
    have hmm_eq : minimax sh b
        = mmMinLoop (fun a m => get_best_utility_value sh 9 [a] (resultU b a) m)
          (sh [] (actionsList b)) INT_MAX MMRet.retEmpty := by
      unfold minimax
      rw [if_neg (by rw [ht]; intro hc; cases hc), if_neg hpx]
    have hchain : (sh [] (actionsList b)).foldl
          (fun acc a => min acc (specMinimaxValue 9 (resultU b a))) INT_MAX
        = specMinimaxValue 9 b := by
      rw [foldl_min_perm (fun a => specMinimaxValue 9 (resultU b a)) hperm INT_MAX,
        foldl_min_seed_eq (fun a => specMinimaxValue 9 (resultU b a)) (actionsList b)
          INT_MAX 2 (actionsList_ne_nil_of_not_terminal ht)
          (fun a _ => le_trans (sMV_range 9 _).2 (le_of_lt INT_MAX_gt))
          (fun a _ => le_trans (sMV_range 9 _).2 (by norm_num))]
      have hr : specMinimaxValue 9 b = (actionsList b).foldl
          (fun acc a => min acc (specMinimaxValue 8 (resultU b a))) 2 :=
        sMV_succ_O ht hpx
      rw [hr]
      exact foldl_min_congr (fun a => specMinimaxValue 9 (resultU b a))
        (fun a => specMinimaxValue 8 (resultU b a)) (actionsList b) 2
        (fun a ha => sMV_nine_child b a hec9 ((mem_actionsList b a).mp ha))
    rcases mmMinLoop_spec (fun a => specMinimaxValue 9 (resultU b a))
        (fun a m => get_best_utility_value sh 9 [a] (resultU b a) m)
        (actionsList b) (sh [] (actionsList b)) INT_MAX MMRet.retEmpty
        (fun a _ => sMV_range 9 _) hmem hchildO
        (lt_trans (by norm_num) INT_MAX_gt) (Or.inl ⟨rfl, rfl⟩)
      with ⟨a', hret, hS, hval⟩ | ⟨hF, _⟩
    · exact ⟨a', hmm_eq.trans hret, hS, hval.trans hchain⟩
    · exfalso
      obtain ⟨a0, rest0, hcons0⟩ := List.exists_cons_of_ne_nil hlne
      have hle := foldl_min_le_elem (fun a => specMinimaxValue 9 (resultU b a))
        (sh [] (actionsList b)) INT_MAX a0
        (by rw [hcons0]; exact List.mem_cons_self a0 rest0)
      have hr1 := (sMV_range 9 (resultU b a0)).2
      have hr2 := INT_MAX_gt
      simp only [] at hle hF
      omega

theorem play_draw (fam : Nat → Oracle) (hfam : ∀ k, PermOracle (fam k)) :
    ∀ (f : Nat) (b : Board) (step : Nat), Valid b → emptyCount b ≤ f →
      specMinimaxValue 9 b = 0 →
      terminal (play fam f step b) = true ∧ utility (play fam f step b) = 0 := by
  intro f
  induction f with
  | zero =>
    intro b step hv hec hval
    have ht : terminal b = true := terminal_of_emptyCount_zero (Nat.le_zero.mp hec)
    refine ⟨ht, ?_⟩
    rw [show play fam 0 step b = b from rfl, ← sMV_terminal 9 ht]
    exact hval
  | succ f ih =>
    intro b step hv hec hval
    by_cases ht : terminal b = true
    · have hplay : play fam (f + 1) step b = b := by simp [play, ht]
      rw [hplay]
      exact ⟨ht, by rw [← sMV_terminal 9 ht]; exact hval⟩
    · have ht' : terminal b = false := by simpa using ht
      obtain ⟨a, hmm, hmemA, hvala⟩ := minimax_spec (fam step) (hfam step) b hv ht'
      have hplay : play fam (f + 1) step b = play fam f (step + 1) (resultU b a) := by
        simp [play, ht', hmm]
      rw [hplay]
      have hcell := (mem_actionsList b a).mp hmemA
      apply ih
      · exact Valid_resultU b a hcell hv
      · have := emptyCount_resultU b a hcell
        omega
      · exact hvala.trans hval

theorem orElse_arg (x : Option Cell) (f g : Unit → Option Cell) (h : ∀ u, f u = g u) :
    Option.orElse x f = Option.orElse x g := by
  cases x <;> simp [Option.orElse, h]

theorem orElse_swap3 (x y : Option Cell) (r : Unit → Option Cell)
    (h : ∀ u v, x = some u → y = some v → u = v) :
    Option.orElse x (fun _ => Option.orElse y r)
      = Option.orElse y (fun _ => Option.orElse x r) := by
  rcases hx : x with _ | u <;> rcases hy : y with _ | v <;> simp [Option.orElse]
  exact h u v hx hy

theorem reachable_valid : ∀ {b : Board}, Reachable b → Valid b := by
  intro b h
  induction h with
  | init => exact ⟨by decide, by decide⟩
  | step hr hact hmem hres ih =>
    rename_i b0 b1 l a
    have ht : terminal b0 = false := by
      by_contra hc
      have hc' : terminal b0 = true := by simpa using hc
      unfold actions at hact
      rw [if_pos hc'] at hact
      cases hact
    unfold actions at hact
    rw [if_neg (by simp [ht])] at hact
    injection hact with hact
    subst hact
    have hcell := (mem_actionsList b0 a).mp hmem
    unfold result at hres
    rw [if_neg (fun hc => hc hcell)] at hres
    injection hres with hres
    subst hres
    exact Valid_resultU b0 a hcell ih

/-- C1: for every shuffle/enumeration order used at any step, starting from
`initial_state` and letting each player in turn play the action returned by
`minimax` until the board is terminal, the final board is terminal and is a
draw: its `utility` is `0`. -/
theorem claim_C1 (fam : Nat → Oracle) (hfam : ∀ k, PermOracle (fam k)) :
    terminal (play fam 9 0 initial_state) = true ∧
    utility (play fam 9 0 initial_state) = 0 :=
  play_draw fam hfam 9 initial_state 0 ⟨by decide, by decide⟩ (by decide) sMV_init

theorem claim_C1_witness :
    terminal (play (fun _ => idOracle) 9 0 initial_state) = true ∧
    utility (play (fun _ => idOracle) 9 0 initial_state) = 0 :=
  claim_C1 (fun _ => idOracle) (fun _ _ l => List.Perm.refl l)

/-- C2: `get_best_utility_value` returns `utility board` immediately on a
terminal board; on any board it returns either the exact minimax value or the
caller-supplied bound (the bound acts only as an alpha-beta cutoff); and for
every bound that cannot trigger a cutoff (`1 ≤ bound` for the maximizer,
`bound ≤ -1` for the minimizer, such as the `-sys.maxsize - 1` and
`sys.maxsize` sentinels) it returns exactly the minimax value of the board,
for every shuffle order. -/
theorem claim_C2 (sh : Oracle) (hsh : PermOracle sh) (b : Board) (hv : Valid b)
    (path : List Act) (bound : Int) :
    (terminal b = true → get_best_utility_value sh 9 path b bound = utility b) ∧
    (get_best_utility_value sh 9 path b bound = specMinimaxValue 9 b ∨
      get_best_utility_value sh 9 path b bound = bound) ∧
    (player b = Cell.X → 1 ≤ bound →
      get_best_utility_value sh 9 path b bound = specMinimaxValue 9 b) ∧
    (player b ≠ Cell.X → bound ≤ -1 →
      get_best_utility_value sh 9 path b bound = specMinimaxValue 9 b) := by
  refine ⟨fun ht => gbu_terminal sh 9 path b bound ht, ?_, ?_, ?_⟩
  · rcases gbu_spec sh hsh 9 b path bound hv (emptyCount_le_nine b) with h | h | h
    · exact Or.inl h
    · exact Or.inr h.2.2.2
    · exact Or.inr h.2.2.2
  · intro hp hb
    rcases gbu_spec sh hsh 9 b path bound hv (emptyCount_le_nine b) with h | h | h
    · exact h
    · exfalso
      have h1 := (sMV_range 9 b).2
      have h2 := h.2.2.1
      omega
    · exact absurd hp h.2.1
  · intro hp hb
    rcases gbu_spec sh hsh 9 b path bound hv (emptyCount_le_nine b) with h | h | h
    · exact h
    · exact absurd h.2.1 hp
    · exfalso
      have h1 := (sMV_range 9 b).1
      have h2 := h.2.2.1
      omega

theorem claim_C2_witness :
    (terminal boardC7 = true →
      get_best_utility_value idOracle 9 [] boardC7 2 = utility boardC7) ∧
    (get_best_utility_value idOracle 9 [] boardC7 2 = specMinimaxValue 9 boardC7 ∨
      get_best_utility_value idOracle 9 [] boardC7 2 = 2) ∧
    (player boardC7 = Cell.X → (1 : Int) ≤ 2 →
      get_best_utility_value idOracle 9 [] boardC7 2 = specMinimaxValue 9 boardC7) ∧
    (player boardC7 ≠ Cell.X → (2 : Int) ≤ -1 →
      get_best_utility_value idOracle 9 [] boardC7 2 = specMinimaxValue 9 boardC7) :=
  claim_C2 idOracle (fun _ l => List.Perm.refl l) boardC7 ⟨by decide, by decide⟩ [] 2

/-- C3: for every board and every in-range action whose target cell is
empty, `result` returns a new board identical to the input except that the
target cell now holds the mover's mark: `X` when the X and O counts of the
input board are equal, `O` otherwise. -/
theorem claim_C3 : ∀ (b : Board) (a : Act), b a.1 a.2 = Cell.E →
    ∃ b', result b a = Except.ok b' ∧
      (∀ i j : Fin 3, (i, j) ≠ a → b' i j = b i j) ∧
      b' a.1 a.2 = (if xCount b = oCount b then Cell.X else Cell.O) := by
  intro b a he
  refine ⟨resultU b a, ?_, ?_, ?_⟩
  · unfold result
    rw [if_neg (fun hc => hc he)]
  · exact fun i j hij => resultU_other b a i j hij
  · rw [resultU_self b a]
    rfl

theorem claim_C3_witness :
    ∃ b', result initial_state ((0 : Fin 3), (0 : Fin 3)) = Except.ok b' ∧
      (∀ i j : Fin 3, (i, j) ≠ ((0 : Fin 3), (0 : Fin 3)) → b' i j = initial_state i j) ∧
      b' (0 : Fin 3) (0 : Fin 3)
        = (if xCount initial_state = oCount initial_state then Cell.X else Cell.O) :=
  claim_C3 initial_state ((0 : Fin 3), (0 : Fin 3)) rfl

/-- C4: `result` raises `InvalidActionError` exactly when the targeted cell
is occupied; a terminal board with an empty target cell does not raise.  The
failure is atomic by construction: in the error case no board is produced,
and the embedding's value semantics (the Python code deep-copies before
writing and raises before the copy) leaves the input board untouched. -/
theorem claim_C4 : ∀ (b : Board) (a : Act),
    ((∃ e, result b a = Except.error e) ↔ b a.1 a.2 ≠ Cell.E) ∧
    (terminal b = true → b a.1 a.2 = Cell.E → ∃ b', result b a = Except.ok b') := by
  intro b a
  constructor
  · constructor
    · rintro ⟨e, he⟩ hcell
      unfold result at he
      rw [if_neg (fun hc => hc hcell)] at he
      cases he
    · intro hne
      exact ⟨InvalidActionError.mk, by unfold result; rw [if_pos hne]⟩
  · intro _ hcell
    exact ⟨resultU b a, by unfold result; rw [if_neg (fun hc => hc hcell)]⟩

theorem claim_C4_witness :
    (∃ e, result boardW ((0 : Fin 3), (0 : Fin 3)) = Except.error e) ∧
    (∃ b', result boardW ((2 : Fin 3), (2 : Fin 3)) = Except.ok b') :=
  ⟨(claim_C4 boardW ((0 : Fin 3), (0 : Fin 3))).1.mpr (by decide),
    (claim_C4 boardW ((2 : Fin 3), (2 : Fin 3))).2 (by decide) (by decide)⟩

/-- C5: `actions` returns `None` exactly on terminal boards; otherwise it
returns exactly the coordinate pairs whose cell is empty, listed in
row-major order. -/
theorem claim_C5 : ∀ b : Board,
    (actions b = none ↔ terminal b = true) ∧
    ∀ l, actions b = some l →
      ((∀ p : Act, p ∈ l ↔ b p.1 p.2 = Cell.E) ∧ l.Pairwise rowMajorLT) := by
  intro b
  constructor
  · constructor
    · intro h
      by_contra hc
      have hc' : terminal b = false := by simpa using hc
      unfold actions at h
      rw [if_neg (by simp [hc'])] at h
      cases h
    · intro h
      unfold actions
      rw [if_pos h]
  · intro l hl
    have ht : terminal b = false := by
      by_contra hc
      have hc' : terminal b = true := by simpa using hc
      unfold actions at hl
      rw [if_pos hc'] at hl
      cases hl
    unfold actions at hl
    rw [if_neg (by simp [ht])] at hl
    injection hl with hl
    subst hl
    refine ⟨fun p => mem_actionsList b p, ?_⟩
    have hap : allPairs.Pairwise
        (fun p q : Act => p.1 < q.1 ∨ (p.1 = q.1 ∧ p.2 < q.2)) := by decide
    exact List.Pairwise.filter _ (hap.imp (fun h => h))

theorem claim_C5_witness :
    (∀ p : Act, p ∈ actionsList initial_state ↔ initial_state p.1 p.2 = Cell.E) ∧
    (actionsList initial_state).Pairwise rowMajorLT :=
  (claim_C5 initial_state).2 (actionsList initial_state) rfl

/-- C6: `winner` returns, for every grid, the mark of the first completed
line in the spec's scan order (row 0, row 1, row 2, col 0, col 1, col 2,
main diagonal, anti-diagonal), and `none` when no line is complete: although
the code interleaves the row and column checks (row `i` then column `i` in
the same loop iteration), its result coincides on every grid with
`specWinner`, the literal transcription of the spec's scan order, because
any two completed lines that the two orders rank differently intersect and
therefore carry the same mark. -/
theorem claim_C6 : ∀ b : Board, winner b = specWinner b := by
  intro b
  have a1 : ∀ u v, lineCheck (b 0 0) (b 1 0) (b 2 0) = some u →
      lineCheck (b 1 0) (b 1 1) (b 1 2) = some v → u = v := by
    intro u v hu hv
    obtain ⟨-, h2, -, -⟩ := lineCheck_some hu
    obtain ⟨h1, -, -, -⟩ := lineCheck_some hv
    exact h2.symm.trans h1
  have a2 : ∀ u v, lineCheck (b 0 1) (b 1 1) (b 2 1) = some u →
      lineCheck (b 2 0) (b 2 1) (b 2 2) = some v → u = v := by
    intro u v hu hv
    obtain ⟨-, -, h3, -⟩ := lineCheck_some hu
    obtain ⟨-, h2, -, -⟩ := lineCheck_some hv
    exact h3.symm.trans h2
  have a3 : ∀ u v, lineCheck (b 0 0) (b 1 0) (b 2 0) = some u →
      lineCheck (b 2 0) (b 2 1) (b 2 2) = some v → u = v := by
    intro u v hu hv
    obtain ⟨-, -, h3, -⟩ := lineCheck_some hu
    obtain ⟨h1, -, -, -⟩ := lineCheck_some hv
    exact h3.symm.trans h1
  unfold winner specWinner
  refine orElse_arg _ _ _ (fun _ => ?_)
  refine (orElse_swap3 _ _ _ a1).trans ?_
  refine orElse_arg _ _ _ (fun _ => ?_)
  exact (orElse_arg _ _ _ (fun _ => orElse_swap3 _ _ _ a2)).trans
    (orElse_swap3 _ _ _ a3)

/-- C7: on the board `[[X,X,E],[O,O,E],[E,E,E]]` (X to move), `minimax`
returns `(0, 2)` for every shuffle order of the action list, and
`get_best_utility_value` on the board resulting from playing `(0, 2)`
equals `1` (for every fuel, path and bound: that board is terminal with X
the winner). -/
theorem claim_C7 (sh : Oracle) (hsh : PermOracle sh) :
    minimax sh boardC7 = MMRet.retAction ((0 : Fin 3), (2 : Fin 3)) ∧
    ∀ (f : Nat) (path : List Act) (bound : Int),
      get_best_utility_value sh f path
        (resultU boardC7 ((0 : Fin 3), (2 : Fin 3))) bound = 1 := by
  constructor
  · obtain ⟨a, hret, hmemA, hval⟩ :=
      minimax_spec sh hsh boardC7 ⟨by decide, by decide⟩ (by decide)
    have hv7 : specMinimaxValue 9 boardC7 = 1 := by
      rw [sMV_eq_of_le boardC7 (show emptyCount boardC7 ≤ 5 by decide) (by norm_num)]
      decide
    rw [hv7] at hval
    have hacts : actionsList boardC7 =
        [((0 : Fin 3), (2 : Fin 3)), ((1 : Fin 3), (2 : Fin 3)),
          ((2 : Fin 3), (0 : Fin 3)), ((2 : Fin 3), (1 : Fin 3)),
          ((2 : Fin 3), (2 : Fin 3))] := by decide
    rw [hacts] at hmemA
    simp only [List.mem_cons, List.not_mem_nil, or_false] at hmemA
    rcases hmemA with h | h | h | h | h
    · rw [h] at hret
      exact hret
    · exfalso
      rw [h, sMV_eq_of_le _ (show emptyCount
          (resultU boardC7 ((1 : Fin 3), (2 : Fin 3))) ≤ 4 by decide)
        (by norm_num)] at hval
      exact absurd hval (by decide)
    · exfalso
      rw [h, sMV_eq_of_le _ (show emptyCount
          (resultU boardC7 ((2 : Fin 3), (0 : Fin 3))) ≤ 4 by decide)
        (by norm_num)] at hval
      exact absurd hval (by decide)
    · exfalso
      rw [h, sMV_eq_of_le _ (show emptyCount
          (resultU boardC7 ((2 : Fin 3), (1 : Fin 3))) ≤ 4 by decide)
        (by norm_num)] at hval
      exact absurd hval (by decide)
    · exfalso
      rw [h, sMV_eq_of_le _ (show emptyCount
          (resultU boardC7 ((2 : Fin 3), (2 : Fin 3))) ≤ 4 by decide)
        (by norm_num)] at hval
      exact absurd hval (by decide)
  · intro f path bound
    rw [gbu_terminal sh f path _ bound (by decide)]
    decide

theorem claim_C7_witness :
    minimax idOracle boardC7 = MMRet.retAction ((0 : Fin 3), (2 : Fin 3)) ∧
    ∀ (f : Nat) (path : List Act) (bound : Int),
      get_best_utility_value idOracle f path
        (resultU boardC7 ((0 : Fin 3), (2 : Fin 3))) bound = 1 :=
  claim_C7 idOracle (fun _ l => List.Perm.refl l)

/-- C8 (amended): for the board `[[X,O,X],[X,O,O],[O,X,E]]`, `terminal`
returns `false` (cell `(2,2)` is still empty and no line is complete),
`winner` returns `none`, and `utility` returns `0`.  The spec's scenario
asserts `is_terminal` is true "(full board)", but this board is not full. -/
theorem claim_C8 :
    terminal boardC8 = false ∧ winner boardC8 = none ∧ utility boardC8 = 0 := by
  decide

/-- C8 counterexample: the spec's concrete scenario for the board
`[[X,O,X],[X,O,O],[O,X,E]]` is false, because `terminal` returns `false`
on it (the board has an empty cell at `(2,2)` and no completed line). -/
theorem claim_C8_counterexample :
    ¬(terminal boardC8 = true ∧ winner boardC8 = none ∧ utility boardC8 = 0) := by
  decide

/-- C9: `player` alternates strictly along reachable play: it returns `X`
on `initial_state`, and for every reachable board `b` with a legal action
`a` (drawn from `actions b`), applying `a` via `result` yields a board
whose `player` differs from `player b`. -/
theorem claim_C9 : player initial_state = Cell.X ∧
    ∀ (b b' : Board) (l : List Act) (a : Act), Reachable b → actions b = some l →
      a ∈ l → result b a = Except.ok b' → player b' ≠ player b := by
  refine ⟨by decide, ?_⟩
  intro b b' l a hr hact hmem hres
  have ht : terminal b = false := by
    by_contra hc
    have hc' : terminal b = true := by simpa using hc
    unfold actions at hact
    rw [if_pos hc'] at hact
    cases hact
  unfold actions at hact
  rw [if_neg (by simp [ht])] at hact
  injection hact with hact
  subst hact
  have hcell := (mem_actionsList b a).mp hmem
  unfold result at hres
  rw [if_neg (fun hc => hc hcell)] at hres
  injection hres with hres
  subst hres
  have hv : Valid b := reachable_valid hr
  rcases player_cases b with hp | hp
  · rw [player_resultU_X b a hcell hp, hp]
    intro hc
    cases hc
  · rw [player_resultU_O b a hcell hv hp, hp]
    intro hc
    cases hc

theorem claim_C9_witness :
    player initial_state = Cell.X ∧
    player (resultU initial_state ((0 : Fin 3), (0 : Fin 3))) ≠ player initial_state :=
  ⟨claim_C9.1,
    claim_C9.2 initial_state (resultU initial_state ((0 : Fin 3), (0 : Fin 3)))
      (actionsList initial_state) ((0 : Fin 3), (0 : Fin 3)) Reachable.init rfl
      (by decide) rfl⟩

/-- C10: for every non-terminal (valid) board and every shuffle order,
`minimax` returns an action, and that action is a member of the legal
action list: the empty-tuple initializer of `best_action` is never
returned. -/
theorem claim_C10 (sh : Oracle) (hsh : PermOracle sh) (b : Board) (hv : Valid b)
    (ht : terminal b = false) :
    ∃ a, minimax sh b = MMRet.retAction a ∧ a ∈ actionsList b := by
  obtain ⟨a, h1, h2, -⟩ := minimax_spec sh hsh b hv ht
  exact ⟨a, h1, h2⟩

theorem claim_C10_witness :
    ∃ a, minimax idOracle boardC7 = MMRet.retAction a ∧ a ∈ actionsList boardC7 :=
  claim_C10 idOracle (fun _ l => List.Perm.refl l) boardC7 ⟨by decide, by decide⟩
    (by decide)
